import Mathlib

/-!
Shallow embedding of the Keccak / SHA-3 implementation in `src/lib.rs`
(crate `sha3_rust`).  Rust `[bool; n]` arrays become `List Bool`, the
`[[[bool; W]; 5]; 5]` state becomes nested lists indexed `state[x][y][z]`,
machine integers (`usize`, `u8`, `u16`) become `Nat` (all intermediate
values stay below the respective word sizes, as noted at each site),
`isize` becomes `Int`, and the two panic sites (`assert!(r < B)` plus the
`chunks(0)` panic in `sponge`, and the `expect("incorrect length")` in the
`sha3!` macro) become `Option` results.
-/

set_option maxRecDepth 100000

namespace Keccak

/-- `const B: usize = 1600`, the width of the Keccak permutation. -/
def B : Nat := 1600

/-- `const W: usize = B / 25`, the lane size (64). -/
def W : Nat := B / 25

/-- `const L: usize = W.trailing_zeros()`; for `W = 64` this is 6. -/
def L : Nat := 6

/-- `const U8BITS: usize = u8::BITS as usize`. -/
def U8BITS : Nat := 8

/-- `type State = [[[bool; W]; 5]; 5]`, indexed `state[x][y][z]`. -/
abbrev State := List (List (List Bool))

/-- `fn new_state() -> State`, all-false state. -/
def new_state : State := List.replicate 5 (List.replicate 5 (List.replicate W false))

/-- Read `state[x][y]` (a lane) from the nested-list state. -/
def getLane (s : State) (x y : Nat) : List Bool := (s.getD x []).getD y []

/-- Read `state[x][y][z]`. -/
def getBit (s : State) (x y z : Nat) : Bool := (getLane s x y).getD z false

/-- Replace the whole lane `state[x][y]`. -/
def setLane (s : State) (x y : Nat) (lane : List Bool) : State :=
  s.set x ((s.getD x []).set y lane)

/-- Write `state[x][y][z] = b`. -/
def setBit (s : State) (x y z : Nat) (b : Bool) : State :=
  setLane s x y ((getLane s x y).set z b)

/-- The `iterate!` macro visits `(x, y, z)` with `y` outermost, then `x`,
then `z`; this is the list of visited triples in visiting order. -/
def iterateIdx : List (Nat × Nat × Nat) :=
  (List.range 5).flatMap fun y =>
    (List.range 5).flatMap fun x =>
      (List.range W).map fun z => (x, y, z)

/-- Loop body chain of `fn fill_state`: walk the remaining triples with
running counter `i`, returning early as soon as `i >= bits.len()`. -/
def fillGo (bits : List Bool) : State → Nat → List (Nat × Nat × Nat) → State
  | s, _, [] => s
  | s, i, (x, y, z) :: rest =>
    if bits.length ≤ i then s
    else fillGo bits (setBit s x y z (bits.getD i false)) (i + 1) rest

/-- `fn fill_state(state: &mut State, bits: &[bool])`. -/
def fill_state (s : State) (bits : List Bool) : State := fillGo bits s 0 iterateIdx

/-- Loop body chain of `fn dump_state`: walk the triples with counter `i`
into the `bits` accumulator (initially `[false; B]`), returning early as
soon as `i >= bits.len()`. -/
def dumpGo (s : State) : List Bool → Nat → List (Nat × Nat × Nat) → List Bool
  | bits, _, [] => bits
  | bits, i, (x, y, z) :: rest =>
    if bits.length ≤ i then bits
    else dumpGo s (bits.set i (getBit s x y z)) (i + 1) rest

/-- `fn dump_state(state: State) -> [bool; B]`. -/
def dump_state (s : State) : List Bool := dumpGo s (List.replicate B false) 0 iterateIdx

/-- Read `plane[x][z]` of a `[[bool; W]; 5]` plane (the `c`/`d` arrays of θ). -/
def getP (p : List (List Bool)) (x z : Nat) : Bool := (p.getD x []).getD z false

/-- The column parities of θ: `c[x][z] = state[x][0][z] ^ ... ^ state[x][4][z]`
(the Rust loop starts from `y = 0` and folds `y = 1..5` in). -/
def thetaC (s : State) : List (List Bool) :=
  (List.range 5).map fun x =>
    (List.range W).map fun z =>
      List.foldl (fun acc y => Bool.xor acc (getBit s x y z)) (getBit s x 0 z) [1, 2, 3, 4]

/-- The θ diffusion plane:
`d[x][z] = c[(x + 4) % 5][z] ^ c[(x + 1) % 5][(z + W - 1) % W]`. -/
def thetaD (c : List (List Bool)) : List (List Bool) :=
  (List.range 5).map fun x =>
    (List.range W).map fun z =>
      Bool.xor (getP c ((x + 4) % 5) z) (getP c ((x + 1) % 5) ((z + W - 1) % W))

/-- `fn theta(state: &mut State)`: each slot is updated once, by
`state[x][y][z] ^= d[x][z]`. -/
def theta (s : State) : State :=
  let c := thetaC s
  let d := thetaD c
  (List.range 5).map fun x =>
    (List.range 5).map fun y =>
      (List.range W).map fun z => Bool.xor (getBit s x y z) (getP d x z)

/-- The ρ inner loop for one `t`: the new lane `(x, y)` read from `state`,
`new_state[x][y][z] = state[x][y][(z + t * (t + 1) / 2) % W]`. -/
def rhoLane (s : State) (x y t : Nat) : List Bool :=
  (List.range W).map fun z => getBit s x y ((z + t * (t + 1) / 2) % W)

/-- One iteration of the ρ walk: fill lane `(x, y)` of the accumulator and
step `(x, y) <- (y, (2x + 3y) % 5)`. -/
def rhoStep (s : State) (acc : Nat × Nat × State) (t : Nat) : Nat × Nat × State :=
  (acc.2.1, (2 * acc.1 + 3 * acc.2.1) % 5, setLane acc.2.2 acc.1 acc.2.1 (rhoLane s acc.1 acc.2.1 t))

/-- `fn rho(state: &mut State)`: copy lane `(0, 0)`, then walk `t = 0..24`
from `(x, y) = (1, 0)`. -/
def rho (s : State) : State :=
  ((List.range 24).foldl (rhoStep s) (1, 0, setLane new_state 0 0 (getLane s 0 0))).2.2

/-- `fn pi(state: &mut State)`: `new_state[x][y][z] = state[(x + 3*y) % 5][x][z]`. -/
def pi (s : State) : State :=
  (List.range 5).map fun x =>
    (List.range 5).map fun y =>
      (List.range W).map fun z => getBit s ((x + 3 * y) % 5) x z

/-- `fn chi(state: &mut State)`:
`new_state[x][y][z] = state[x][y][z] ^ ((!state[(x+1)%5][y][z]) & state[(x+2)%5][y][z])`. -/
def chi (s : State) : State :=
  (List.range 5).map fun x =>
    (List.range 5).map fun y =>
      (List.range W).map fun z =>
        Bool.xor (getBit s x y z) ((!getBit s ((x + 1) % 5) y z) && getBit s ((x + 2) % 5) y z)

/-- One iteration of the `rc` loop,
`r = ((r << 1) ^ ((r >> 7) & 1) * 0x71) & 0xff`.  `r` is a `u16` in the
Rust code, but the invariant `r < 0x100` (initially `0x80`, re-established
by `& 0xff`) keeps every intermediate below `2 ^ 16`, so plain `Nat`
arithmetic is exact. -/
def rcLoopStep (r : Nat) : Nat := ((r <<< 1) ^^^ ((r >>> 7) &&& 1) * 0x71) &&& 0xff

/-- `for _ in 0..(t % 255)` applications of `rcLoopStep`. -/
def rcLoop : Nat → Nat → Nat
  | 0, r => r
  | k + 1, r => rcLoop k (rcLoopStep r)

/-- `fn rc(t: u8) -> bool`: run the register loop `t % 255` times from
`0x80` and return `(r >> 7) & 1 != 0`. -/
def rc (t : Nat) : Bool := ((rcLoop (t % 255) 0x80) >>> 7) &&& 1 != 0

/-- The `rc_arr` built by `fn iota`: start from `[false; W]` and set
`rc_arr[(1 << j) - 1] = rc(j + 7 * round_index)` for `j = 0..=L`. -/
def iotaRcArr (round_index : Nat) : List Bool :=
  (List.range (L + 1)).foldl
    (fun arr j => arr.set ((1 <<< j) - 1) (rc (j + 7 * round_index)))
    (List.replicate W false)

/-- `fn iota(state: &mut State, round_index: u8)`:
`state[0][0][z] ^= rc_arr[z]` for every `z`.  The round index stays below
168, so `Nat` models the `u8` exactly. -/
def iota (s : State) (round_index : Nat) : State :=
  setLane s 0 0
    ((List.range W).map fun z => Bool.xor (getBit s 0 0 z) ((iotaRcArr round_index).getD z false))

/-- `fn round(state: &mut State, round_index: u8)`: θ, ρ, π, χ, ι in order. -/
def round (s : State) (round_index : Nat) : State := iota (chi (pi (rho (theta s)))) round_index

/-- `fn keccak_f(bits: &[bool]) -> [bool; B]`: fill a fresh state, run
`12 + 2 * L` rounds, dump. -/
def keccak_f (bits : List Bool) : List Bool :=
  dump_state ((List.range (12 + 2 * L)).foldl (fun s i => round s i) (fill_state new_state bits))

theorem dumpGo_length (s : State) (ts : List (Nat × Nat × Nat)) :
    ∀ bits i, (dumpGo s bits i ts).length = bits.length := by
  induction ts with
  | nil => intro bits i; rfl
  | cons t rest ih =>
    intro bits i
    obtain ⟨x, y, z⟩ := t
    simp only [dumpGo]
    split
    · rfl
    · rw [ih]
      simp

theorem dump_state_length (s : State) : (dump_state s).length = B := by
  rw [dump_state, dumpGo_length]
  simp

theorem keccak_f_length (bits : List Bool) : (keccak_f bits).length = B :=
  dump_state_length _

/-- The fixed-size bit array `[bool; B]` of the Rust code. -/
abbrev BArr := { l : List Bool // l.length = B }

/-- `type SpongeFn = fn(&[bool]) -> [bool; B]`. -/
abbrev SpongeFn := List Bool → BArr

/-- `type PadFn = fn(isize, isize) -> Vec<bool>`. -/
abbrev PadFn := Int → Int → List Bool

/-- `keccak_f` bundled with its length guarantee, forming a `SpongeFn`. -/
def keccak_fB : SpongeFn := fun bits => ⟨keccak_f bits, keccak_f_length bits⟩

/-- `fn pad101(x: isize, m: isize) -> Vec<bool>`:
`j = (x - (m % x) - 2).rem_euclid(x)` (Rust `%` on `isize` is the truncated
remainder, `Int.tmod`; `rem_euclid` is `Int.emod`), then a `false` vector of
length `j + 2` with the first and last entries set to `true`. -/
def pad101 (x m : Int) : List Bool :=
  let j := (x - m.tmod x - 2).emod x
  ((List.replicate (j + 2).toNat false).set 0 true).set (j.toNat + 1) true

/-- Rust's `slice::chunks(r)`: consecutive chunks of size `r`, the last chunk
possibly shorter.  (`chunks(0)` panics in Rust; the `r = 0` branch here is
never reached, `sponge` returns `none` for it.) -/
def chunks {α : Type} (r : Nat) : List α → List (List α)
  | [] => []
  | a :: l =>
    if r = 0 then []
    else (a :: l).take r :: chunks r ((a :: l).drop r)
termination_by l => l.length
decreasing_by
  simp only [List.length_drop, List.length_cons]
  omega

/-- The absorb XOR `for (s_i, c_i) in s.iter_mut().zip(chunk) { *s_i ^= *c_i; }`:
the first `chunk.length` entries of `s` are XORed with `chunk`, the rest of
`s` is unchanged. -/
def xorInto (s : List Bool) (chunk : List Bool) : List Bool :=
  List.zipWith Bool.xor s chunk ++ s.drop chunk.length

theorem xorInto_length (s chunk : List Bool) (h : chunk.length ≤ s.length) :
    (xorInto s chunk).length = s.length := by
  simp [xorInto, List.length_zipWith]
  omega

/-- The absorbing `for chunk in p.chunks(r)` loop of `fn sponge`. -/
def absorb (f : SpongeFn) : BArr → List (List Bool) → BArr
  | s, [] => s
  | s, chunk :: rest => absorb f (f (xorInto s.val chunk)) rest

/-- The squeezing `while z.len() < d` loop of `fn sponge`: extend `z` with
the whole state `s`, then `s = f(&s)`. -/
def squeeze (f : SpongeFn) (d : Nat) (s : BArr) (z : List Bool) : List Bool :=
  if z.length < d then squeeze f d (f s.val) (z ++ s.val) else z.take d
termination_by d - z.length
decreasing_by
  simp only [List.length_append, s.property]
  simp only [B]
  omega

/-- The all-false `[false; B]` initial sponge state. -/
def zeroB : BArr := ⟨List.replicate B false, by simp⟩

/-- `fn sponge(f: SpongeFn, pad: PadFn, r: usize, n: &[bool], d: usize) -> Vec<bool>`.
The `assert!(r < B)` and the `p.chunks(r)` panic for `r = 0` are modelled as
`none`. -/
def sponge (f : SpongeFn) (pad : PadFn) (r : Nat) (n : List Bool) (d : Nat) :
    Option (List Bool) :=
  let p := n ++ pad (r : Int) (n.length : Int)
  if r < B ∧ 0 < r then some (squeeze f d (absorb f zeroB (chunks r p)) []) else none

/-- `fn keccak(c: usize, n: &[bool], d: usize) -> Vec<bool>`. -/
def keccak (c : Nat) (n : List Bool) (d : Nat) : Option (List Bool) :=
  sponge keccak_fB pad101 (B - c) n d

/-- `fn h2b(h: &[u8], n: usize) -> Vec<bool>`: for each byte emit bits
`(byte >> i) & 1 == 1` for `i = 0..8` (LSB first), then take the first `n`.
Bytes are `Nat`s below 256. -/
def h2b (h : List Nat) (n : Nat) : List Bool :=
  (h.flatMap fun byte => (List.range 8).map fun i => (byte >>> i) &&& 1 == 1).take n

/-- `fn b2h(s: &[bool]) -> Vec<u8>`: chunk into groups of 8 and fold each
group into `byte | ((bit as u8) << i)`.  All bytes stay below 256, so `Nat`
is exact. -/
def b2h (s : List Bool) : List Nat :=
  (chunks U8BITS s).map fun chunk =>
    chunk.enum.foldl (fun byte p => byte ||| ((if p.2 then 1 else 0) <<< p.1)) 0

/-- The body of the `sha3!` macro for output size `n`: convert the input to
bits, append the domain-separation bits `[false, true]`, run `keccak` with
capacity `2 * n` and output size `n`, pack into bytes, and check the length
as `try_into().expect("incorrect length")` does (`none` models the panic). -/
def sha3 (n : Nat) (input : List Nat) : Option (List Nat) :=
  let bits := h2b input (input.length * U8BITS)
  (keccak (n * 2) (bits ++ [false, true]) n).bind fun result_bits =>
    let result_bytes := b2h result_bits
    if result_bytes.length = n / U8BITS then some result_bytes else none

/-- `sha3!(sha3_224, 224)`. -/
def sha3_224 (input : List Nat) : Option (List Nat) := sha3 224 input

/-- `sha3!(sha3_256, 256)`. -/
def sha3_256 (input : List Nat) : Option (List Nat) := sha3 256 input

/-- `sha3!(sha3_384, 384)`. -/
def sha3_384 (input : List Nat) : Option (List Nat) := sha3 384 input

/-- `sha3!(sha3_512, 512)`. -/
def sha3_512 (input : List Nat) : Option (List Nat) := sha3 512 input

/-! ## C8: the round-constant LFSR -/

/-- C8: `rc 0` is `true`, and on the whole `u8` input range `rc` only
depends on `t % 255`; `rc` is the pure function given by iterating the
register step `r = ((r << 1) ^ ((r >> 7) & 1) * 0x71) & 0xff` from
`r = 0x80` and returning bit 7 of the final register. -/
theorem rc_zero_and_period :
    rc 0 = true ∧ ∀ t : Nat, t < 256 → rc t = rc (t % 255) := by
  constructor
  · decide
  · intro t _
    simp [rc, Nat.mod_mod_of_dvd]

/-- Witness for C8 at `t = 37`. -/
theorem rc_zero_and_period_witness : rc 0 = true ∧ rc 37 = rc (37 % 255) :=
  ⟨rc_zero_and_period.1, rc_zero_and_period.2 37 (by decide)⟩

/-! ## C10: `h2b` is total and returns `min n (8 * |h|)` bits -/

theorem flatMapBits_length (h : List Nat) :
    (h.flatMap fun byte =>
      (List.range 8).map fun i => (byte >>> i) &&& 1 == 1).length = 8 * h.length := by
  induction h with
  | nil => rfl
  | cons b t ih =>
    simp only [List.flatMap_cons, List.length_append, List.length_map,
      List.length_range, List.length_cons, ih]
    ring

/-- C10: `h2b h n` always returns exactly `min n (8 * h.length)` bits; in
particular it silently returns fewer than `n` bits when `n > 8 * h.length`. -/
theorem h2b_length (h : List Nat) (n : Nat) :
    (h2b h n).length = min n (8 * h.length) := by
  simp only [h2b, List.length_take, flatMapBits_length]

/-! ## C2: the ρ step does not implement the FIPS 202 rotation -/

/-- C2 (counterexample to the claimed ρ behaviour): start from the state
with a single `true` bit at `(x, y, z) = (1, 0, 0)`.  The claim (and FIPS
202) requires lane `(1, 0)` to be rotated by `(t+1)(t+2)/2 = 1` at step
`t = 0`, which would move the bit to `z = 1`.  The code computes
`new_state[x][y][z] = state[x][y][(z + t(t+1)/2) % W]`, which at `t = 0`
leaves the lane unrotated: the bit stays at `z = 0`. -/
theorem rho_lane10_unrotated :
    getBit (rho (setBit new_state 1 0 0 true)) 1 0 0 = true ∧
    getBit (rho (setBit new_state 1 0 0 true)) 1 0 1 = false := by
  constructor
  · decide
  · decide

/-! ## C6: `b2h` after `h2b` over all the bits is the identity -/

theorem chunks_cons_of_length {α : Type} (k : Nat) (l1 l2 : List α)
    (hk : 0 < k) (hl : l1.length = k) :
    chunks k (l1 ++ l2) = l1 :: chunks k l2 := by
  match l1 with
  | [] => simp at hl; omega
  | a :: t =>
    rw [List.cons_append, chunks]
    have hk0 : ¬ (k = 0) := by omega
    simp only [hk0, if_false]
    congr 1
    · rw [← List.cons_append, List.take_append_of_le_length (by omega), ← hl,
        List.take_length]
    · rw [← List.cons_append, List.drop_append_of_le_length (by omega), ← hl,
        List.drop_length, List.nil_append]

theorem chunks_nil {α : Type} (k : Nat) : chunks k ([] : List α) = [] := by
  rw [chunks.eq_def]

theorem chunks_flatMap {α : Type} (k : Nat) (hk : 0 < k)
    (f : α → List Bool) (hf : ∀ a, (f a).length = k) (l : List α) :
    chunks k (l.flatMap f) = l.map f := by
  induction l with
  | nil => rw [List.flatMap_nil, chunks_nil, List.map_nil]
  | cons a t ih =>
    rw [List.flatMap_cons, chunks_cons_of_length k _ _ hk (hf a), ih, List.map_cons]

theorem byte_roundtrip :
    ∀ b : Nat, b < 256 →
      ((List.range 8).map fun i => (b >>> i) &&& 1 == 1).enum.foldl
        (fun byte p => byte ||| ((if p.2 then 1 else 0) <<< p.1)) 0 = b := by
  decide

/-- C6: converting a byte buffer to all of its bits and back is the
identity: `b2h (h2b H (8 * |H|)) = H` for buffers of genuine bytes. -/
theorem b2h_h2b (H : List Nat) (hH : ∀ b ∈ H, b < 256) :
    b2h (h2b H (8 * H.length)) = H := by
  rw [h2b, List.take_of_length_le (le_of_eq (flatMapBits_length H)), b2h]
  have hU : U8BITS = 8 := rfl
  rw [hU, chunks_flatMap 8 (by omega) _ (fun a => by simp) H]
  rw [List.map_map]
  conv_rhs => rw [← List.map_id H]
  exact List.map_congr_left fun b hb => byte_roundtrip b (hH b hb)

/-- Witness for C6 on the buffer `[0, 255, 1, 137]`. -/
theorem b2h_h2b_witness :
    (∀ b ∈ [0, 255, 1, 137], b < 256) ∧
    b2h (h2b [0, 255, 1, 137] (8 * 4)) = [0, 255, 1, 137] :=
  ⟨by decide, b2h_h2b [0, 255, 1, 137] (by decide)⟩

/-! ## C7: the pad10*1 padding -/

theorem replicate_set_last (j : Nat) :
    (List.replicate (j + 1) false).set j true = List.replicate j false ++ [true] := by
  induction j with
  | zero => rfl
  | succ k ih =>
    rw [List.replicate_succ, List.set_cons_succ, ih, List.replicate_succ, List.cons_append]

/-- C7: for `x > 0` and `m ≥ 0`, `pad101 x m` is a `1` bit, then
`(-m - 2) mod x` zero bits (Euclidean modulo), then a final `1` bit; its
length is `(-m - 2) mod x + 2`, which lies in `[2, x + 1]`, and `m`
plus the padding length is a positive multiple of `x`. -/
theorem pad101_spec (x m : Int) (hx : 0 < x) (hm : 0 ≤ m) :
    pad101 x m = true :: (List.replicate ((-m - 2) % x).toNat false ++ [true]) ∧
    ((pad101 x m).length : Int) = (-m - 2) % x + 2 ∧
    2 ≤ (pad101 x m).length ∧
    ((pad101 x m).length : Int) ≤ x + 1 ∧
    (pad101 x m).head? = some true ∧
    (pad101 x m).getLast? = some true ∧
    x ∣ (m + ((pad101 x m).length : Int)) ∧
    0 < m + ((pad101 x m).length : Int) := by
  have hx0 : x ≠ 0 := ne_of_gt hx
  have hj : (x - m.tmod x - 2) % x = (-m - 2) % x := by
    rw [Int.tmod_eq_emod hm (le_of_lt hx)]
    have hrw : x - m % x - 2 = (-m - 2) + x * (1 + m / x) := by
      rw [Int.emod_def]; ring
    rw [hrw, Int.add_mul_emod_self_left]
  have hj0 : 0 ≤ (-m - 2) % x := Int.emod_nonneg _ hx0
  have hjlt : (-m - 2) % x < x := Int.emod_lt_of_pos _ hx
  have htn : ((-m - 2) % x + 2).toNat = ((-m - 2) % x).toNat + 2 := by omega
  have hemod : ∀ a b : Int, a.emod b = a % b := fun _ _ => rfl
  have hpad : pad101 x m = true :: (List.replicate ((-m - 2) % x).toNat false ++ [true]) := by
    simp only [pad101, hemod, hj, htn]
    rw [List.replicate_succ, List.set_cons_zero, List.set_cons_succ, replicate_set_last]
  refine ⟨hpad, ?_, ?_, ?_, ?_, ?_, ?_, ?_⟩
  · rw [hpad]; simp; omega
  · rw [hpad]; simp
  · rw [hpad]; simp; omega
  · rw [hpad]; rfl
  · rw [hpad, ← List.cons_append, List.getLast?_concat]
  · rw [hpad]
    refine ⟨-((-m - 2) / x), ?_⟩
    simp only [List.length_cons, List.length_append, List.length_replicate,
      List.length_nil]
    have hcast : (((-m - 2) % x).toNat : Int) = (-m - 2) % x := by omega
    push_cast
    rw [hcast, Int.emod_def]
    ring
  · rw [hpad]; simp; omega

/-- Witness for C7 at `x = 8`, `m = 3`. -/
theorem pad101_spec_witness :
    pad101 8 3 = true :: (List.replicate ((-3 - 2) % 8 : Int).toNat false ++ [true]) :=
  (pad101_spec 8 3 (by decide) (by decide)).1

/-! ## C5: `dump_state` after `fill_state` is the identity on 1600 bits -/

theorem getD_set_ne {α : Type} (l : List α) {i j : Nat} (a d : α) (h : i ≠ j) :
    (l.set i a).getD j d = l.getD j d := by
  simp [List.getD_eq_getElem?_getD, List.getElem?_set_ne h]

theorem getD_set_self {α : Type} (l : List α) {i : Nat} (a d : α) (h : i < l.length) :
    (l.set i a).getD i d = a := by
  simp [List.getD_eq_getElem?_getD, List.getElem?_set_self h]

/-- Well-formed state: the actual `[[[bool; W]; 5]; 5]` dimensions. -/
def WF (s : State) : Prop :=
  s.length = 5 ∧ ∀ p ∈ s, p.length = 5 ∧ ∀ l ∈ p, l.length = W

theorem WF_new_state : WF new_state := by
  constructor
  · rfl
  · intro p hp
    rw [List.eq_of_mem_replicate hp]
    constructor
    · rfl
    · intro l hl
      rw [List.eq_of_mem_replicate hl]
      rfl

theorem getD_mem {α : Type} (l : List α) {i : Nat} (d : α) (h : i < l.length) :
    l.getD i d ∈ l := by
  rw [List.getD_eq_getElem?_getD, List.getElem?_eq_getElem h]
  exact List.getElem_mem h

theorem WF_setBit (s : State) (x y z : Nat) (b : Bool) (h : WF s) :
    WF (setBit s x y z b) := by
  obtain ⟨h5, hmem⟩ := h
  refine ⟨by rw [setBit, setLane, List.length_set, h5], ?_⟩
  intro p hp
  rw [setBit, setLane] at hp
  by_cases hxl : x < s.length
  · rcases List.mem_or_eq_of_mem_set hp with hp' | hp'
    · exact hmem p hp'
    · subst hp'
      obtain ⟨hp5, hlanes⟩ := hmem _ (getD_mem s [] hxl)
      by_cases hyl : y < (s.getD x []).length
      · refine ⟨by rw [List.length_set, hp5], ?_⟩
        intro l hl
        rcases List.mem_or_eq_of_mem_set hl with hl' | hl'
        · exact hlanes l hl'
        · subst hl'
          rw [List.length_set, getLane]
          exact hlanes _ (getD_mem _ [] hyl)
      · rw [List.set_eq_of_length_le (le_of_not_lt hyl)]
        exact ⟨hp5, hlanes⟩
  · rw [List.set_eq_of_length_le (le_of_not_lt hxl)] at hp
    exact hmem p hp

theorem getBit_setBit_ne (s : State) {x y z x' y' z' : Nat} (b : Bool)
    (h : (x, y, z) ≠ (x', y', z')) :
    getBit (setBit s x y z b) x' y' z' = getBit s x' y' z' := by
  simp only [getBit, setBit, setLane, getLane]
  by_cases hx : x = x'
  · subst hx
    by_cases hxl : x < s.length
    · rw [getD_set_self _ _ _ hxl]
      by_cases hy : y = y'
      · subst hy
        by_cases hyl : y < (s.getD x []).length
        · rw [getD_set_self _ _ _ hyl]
          have hz : z ≠ z' := by
            intro hzz
            exact h (by rw [hzz])
          rw [getD_set_ne _ _ _ hz]
        · rw [List.set_eq_of_length_le (le_of_not_lt hyl)]
      · rw [getD_set_ne _ _ _ hy]
    · rw [List.set_eq_of_length_le (le_of_not_lt hxl)]
  · rw [getD_set_ne _ _ _ hx]

theorem getBit_setBit_eq (s : State) {x y z : Nat} (b : Bool)
    (hx : x < 5) (hy : y < 5) (hz : z < W) (h : WF s) :
    getBit (setBit s x y z b) x y z = b := by
  obtain ⟨h5, hmem⟩ := h
  have hxl : x < s.length := by omega
  obtain ⟨hp5, hlanes⟩ := hmem _ (getD_mem s [] hxl)
  have hyl : y < (s.getD x []).length := by omega
  have hzl : z < ((s.getD x []).getD y []).length := by
    rw [hlanes _ (getD_mem _ [] hyl)]; exact hz
  simp only [getBit, setBit, setLane, getLane]
  rw [getD_set_self _ _ _ hxl, getD_set_self _ _ _ hyl, getD_set_self _ _ _ hzl]

theorem getBit_fillGo_notMem (v : List Bool) (ts : List (Nat × Nat × Nat)) :
    ∀ (s : State) (i : Nat) (x y z : Nat), (x, y, z) ∉ ts →
      getBit (fillGo v s i ts) x y z = getBit s x y z := by
  induction ts with
  | nil => intro s i x y z _; rfl
  | cons p rest ih =>
    intro s i x y z hmem
    obtain ⟨px, py, pz⟩ := p
    rw [fillGo]
    split
    · rfl
    · rw [ih _ _ _ _ _ (fun hc => hmem (List.mem_cons_of_mem _ hc))]
      exact getBit_setBit_ne s _ (fun hc => hmem (hc ▸ List.mem_cons_self _ _))

theorem dumpGo_fillGo (v : List Bool) (ts : List (Nat × Nat × Nat)) :
    ∀ (s : State) (bits : List Bool) (i : Nat),
      ts.Nodup → (∀ p ∈ ts, p.1 < 5 ∧ p.2.1 < 5 ∧ p.2.2 < W) → WF s →
      i + ts.length ≤ v.length → i + ts.length ≤ bits.length →
      dumpGo (fillGo v s i ts) bits i ts =
        bits.take i ++ (v.drop i).take ts.length ++ bits.drop (i + ts.length) := by
  induction ts with
  | nil =>
    intro s bits i _ _ _ _ _
    simp [dumpGo, fillGo]
  | cons p rest ih =>
    intro s bits i hnodup hbounds hWF hv hbits
    obtain ⟨px, py, pz⟩ := p
    have hiv : i < v.length := by simp at hv; omega
    have hibits : i < bits.length := by simp at hbits; omega
    rw [fillGo, if_neg (by omega), dumpGo, if_neg (by omega)]
    have hpmem : (px, py, pz) ∉ rest := (List.nodup_cons.mp hnodup).1
    have hb := hbounds _ (List.mem_cons_self _ _)
    have hget : getBit (fillGo v (setBit s px py pz (v.getD i false)) (i + 1) rest) px py pz
        = v.getD i false := by
      rw [getBit_fillGo_notMem v rest _ _ _ _ _ hpmem]
      exact getBit_setBit_eq s _ hb.1 hb.2.1 hb.2.2 hWF
    rw [hget]
    have hIH := ih (setBit s px py pz (v.getD i false)) (bits.set i (v.getD i false)) (i + 1)
      (List.nodup_cons.mp hnodup).2
      (fun q hq => hbounds q (List.mem_cons_of_mem _ hq))
      (WF_setBit s px py pz _ hWF)
      (by simp at hv ⊢; omega)
      (by rw [List.length_set]; simp at hbits ⊢; omega)
    rw [hIH]
    have hset : bits.set i (v.getD i false) =
        bits.take i ++ v.getD i false :: bits.drop (i + 1) := by
      rw [List.set_eq_take_append_cons_drop, if_pos hibits]
    have htakei : (bits.set i (v.getD i false)).take i = bits.take i := by
      rw [hset, List.take_append_of_le_length (by rw [List.length_take]; omega),
        List.take_take]
      simp
    have htake : (bits.set i (v.getD i false)).take (i + 1) =
        bits.take i ++ [v.getD i false] := by
      rw [List.take_succ, htakei]
      congr 1
      rw [List.getElem?_set_self hibits]
      rfl
    have hdrop : (bits.set i (v.getD i false)).drop (i + 1 + rest.length) =
        bits.drop (i + (rest.length + 1)) := by
      rw [List.drop_set_of_lt _ _ (by omega)]
      congr 1
      omega
    have hvdrop : (v.drop i).take (rest.length + 1) =
        v.getD i false :: (v.drop (i + 1)).take rest.length := by
      rw [List.drop_eq_getElem_cons hiv, List.take_succ_cons]
      congr 1
      rw [List.getD_eq_getElem?_getD, List.getElem?_eq_getElem hiv]
      rfl
    rw [htake, hdrop]
    simp only [List.length_cons]
    rw [hvdrop]
    simp [List.append_assoc]

theorem range_flatMap_blocks (k : Nat) :
    ∀ n : Nat, List.range (n * k) =
      (List.range n).flatMap fun a => (List.range k).map fun b => k * a + b := by
  intro n
  induction n with
  | zero => simp
  | succ m ih =>
    rw [Nat.succ_mul, List.range_add, ih, List.range_succ, List.flatMap_append]
    congr 1
    simp only [List.flatMap_cons, List.flatMap_nil, List.append_nil]
    apply List.map_congr_left
    intro b _
    ring

theorem flatMap_congr {α β : Type} {l : List α} {f g : α → List β}
    (h : ∀ a ∈ l, f a = g a) : l.flatMap f = l.flatMap g := by
  induction l with
  | nil => rfl
  | cons a t ih =>
    simp only [List.flatMap_cons]
    rw [h a (List.mem_cons_self a t), ih fun b hb => h b (List.mem_cons_of_mem _ hb)]

/-- The 1600 triples of `iterateIdx` flatten to the indices `0..1600` under
`i = W * (5 * y + x) + z`: the `iterate!` nesting order realises exactly the
FIPS flat-to-3D mapping. -/
theorem iterateIdx_map_flat :
    iterateIdx.map (fun p => 64 * (5 * p.2.1 + p.1) + p.2.2) = List.range 1600 := by
  have h1600 : (1600 : Nat) = 5 * 320 := by norm_num
  rw [h1600, range_flatMap_blocks 320 5, iterateIdx, List.map_flatMap]
  apply flatMap_congr
  intro y _
  have h320 : (320 : Nat) = 5 * 64 := by norm_num
  rw [List.map_flatMap, h320, range_flatMap_blocks 64 5, List.map_flatMap]
  apply flatMap_congr
  intro x _
  rw [List.map_map, List.map_map]
  apply List.map_congr_left
  intro z _
  simp only [Function.comp_apply]
  ring

theorem iterateIdx_nodup : iterateIdx.Nodup := by
  rw [iterateIdx, List.nodup_flatMap]
  constructor
  · intro y _
    rw [List.nodup_flatMap]
    constructor
    · intro x _
      refine (List.nodup_range 64).map ?_
      intro a b h
      injection h with _ h2
      injection h2
    · refine List.Pairwise.imp ?_ (List.nodup_range 5)
      intro x₁ x₂ hne
      simp only [Function.onFun]
      intro p hp1 hp2
      simp only [List.mem_map, List.mem_range] at hp1 hp2
      obtain ⟨z₁, _, rfl⟩ := hp1
      obtain ⟨z₂, _, h2⟩ := hp2
      exact hne (congrArg Prod.fst h2).symm
  · refine List.Pairwise.imp ?_ (List.nodup_range 5)
    intro y₁ y₂ hne
    simp only [Function.onFun]
    intro p hp1 hp2
    simp only [List.mem_flatMap, List.mem_map, List.mem_range] at hp1 hp2
    obtain ⟨x₁, _, z₁, _, rfl⟩ := hp1
    obtain ⟨x₂, _, z₂, _, h2⟩ := hp2
    exact hne (congrArg (fun q => q.2.1) h2).symm

theorem iterateIdx_bounds : ∀ p ∈ iterateIdx, p.1 < 5 ∧ p.2.1 < 5 ∧ p.2.2 < W := by
  intro p hp
  simp only [iterateIdx, List.mem_flatMap, List.mem_map, List.mem_range] at hp
  obtain ⟨y, hy, x, hx, z, hz, rfl⟩ := hp
  exact ⟨hx, hy, hz⟩

theorem iterateIdx_length : iterateIdx.length = 1600 := by
  have h := congrArg List.length iterateIdx_map_flat
  simpa using h

/-- C5: for every bit vector `v` of length exactly 1600,
`dump_state (fill_state new_state v) = v`; the two walks use the
flat-to-3D mapping `i = W * (5 * y + x) + z` (`iterateIdx_map_flat`). -/
theorem dump_fill_roundtrip (v : List Bool) (hv : v.length = 1600) :
    dump_state (fill_state new_state v) = v := by
  rw [dump_state, fill_state,
    dumpGo_fillGo v iterateIdx new_state (List.replicate B false) 0
      iterateIdx_nodup iterateIdx_bounds WF_new_state
      (by rw [iterateIdx_length, hv]) (by rw [iterateIdx_length]; simp [B])]
  rw [iterateIdx_length, List.take_zero, List.drop_zero, List.take_of_length_le (by omega)]
  simp [B]

/-- Witness for C5 on an alternating bit vector of length 1600. -/
theorem dump_fill_roundtrip_witness :
    dump_state (fill_state new_state ((List.replicate 800 true).flatMap
      fun b => [b, !b])) = (List.replicate 800 true).flatMap fun b => [b, !b] :=
  dump_fill_roundtrip _ (by simp)

/-! ## C3: output lengths and unreachability of the length-check panic -/

theorem squeeze_length_general (f : SpongeFn) (d : Nat) :
    ∀ (m : Nat) (s : BArr) (z : List Bool), d - z.length ≤ m →
      (squeeze f d s z).length = if d ≤ z.length then min d z.length else d := by
  intro m
  induction m with
  | zero =>
    intro s z hm
    rw [squeeze, if_neg (by omega), if_pos (by omega), List.length_take]
  | succ k ih =>
    intro s z hm
    have hs : s.val.length = 1600 := s.property
    by_cases hz : z.length < d
    · rw [squeeze, if_pos hz, ih (f s.val) (z ++ s.val)
        (by simp only [List.length_append, hs]; omega)]
      simp only [List.length_append, hs]
      split_ifs <;> omega
    · rw [squeeze, if_neg hz, if_pos (by omega), List.length_take]

theorem squeeze_nil_length (f : SpongeFn) (d : Nat) (s : BArr) :
    (squeeze f d s []).length = d := by
  rw [squeeze_length_general f d (d + 1) s [] (by simp)]
  by_cases hd : d = 0
  · subst hd; simp
  · rw [if_neg (by simp; omega)]

theorem chunks_length_of_dvd {α : Type} (r : Nat) (hr : 0 < r) :
    ∀ (m : Nat) (l : List α), l.length ≤ m → r ∣ l.length →
      (chunks r l).length = l.length / r := by
  intro m
  induction m with
  | zero =>
    intro l hm hdvd
    match l with
    | [] => simp [chunks_nil]
    | a :: t => simp at hm
  | succ k ih =>
    intro l hm hdvd
    match l with
    | [] => simp [chunks_nil]
    | a :: t =>
      rw [chunks, if_neg (by omega), List.length_cons]
      obtain ⟨q, hq⟩ := hdvd
      have hq1 : 1 ≤ q := by
        rcases Nat.eq_zero_or_pos q with h0 | h1
        · rw [h0, Nat.mul_zero] at hq; simp at hq
        · exact h1
      have hlen : ((a :: t).drop r).length = (a :: t).length - r := by
        simp
      have hrle : r ≤ (a :: t).length := by
        rw [hq]
        calc r = r * 1 := by ring
        _ ≤ r * q := Nat.mul_le_mul_left r hq1
      have h1 : r * q - r = r * (q - 1) := by
        cases q with
        | zero => simp
        | succ p => rw [Nat.mul_succ]; simp
      rw [ih ((a :: t).drop r) (by simp at hm ⊢; omega)
        (by rw [hlen, hq, h1]; exact ⟨q - 1, rfl⟩)]
      rw [hlen, hq, h1, Nat.mul_div_cancel_left _ hr, Nat.mul_div_cancel_left _ hr]
      omega

theorem b2h_length_of_dvd (l : List Bool) (h : 8 ∣ l.length) :
    (b2h l).length = l.length / 8 := by
  rw [b2h, List.length_map]
  have hU : U8BITS = 8 := rfl
  rw [hU, chunks_length_of_dvd 8 (by omega) l.length l (le_refl _) h]

theorem sponge_some (f : SpongeFn) (pad : PadFn) (r : Nat) (n : List Bool) (d : Nat)
    (h1 : r < B) (h2 : 0 < r) :
    sponge f pad r n d =
      some (squeeze f d
        (absorb f zeroB (chunks r (n ++ pad (r : Int) (n.length : Int)))) []) := by
  rw [sponge, if_pos ⟨h1, h2⟩]

theorem sha3_some_length (n : Nat) (input : List Nat)
    (hr1 : B - n * 2 < B) (hr2 : 0 < B - n * 2) (hdvd : 8 ∣ n) :
    ∃ out, sha3 n input = some out ∧ out.length = n / 8 := by
  obtain ⟨out, hk, hol⟩ : ∃ o,
      keccak (n * 2) (h2b input (input.length * U8BITS) ++ [false, true]) n = some o ∧
        o.length = n := by
    rw [keccak, sponge_some _ _ _ _ _ hr1 hr2]
    exact ⟨_, rfl, squeeze_nil_length keccak_fB n _⟩
  refine ⟨b2h out, ?_, ?_⟩
  · simp only [sha3]
    rw [hk, Option.some_bind,
      if_pos (show (b2h out).length = n / U8BITS by
        rw [b2h_length_of_dvd _ (by rw [hol]; exact hdvd), hol]; rfl)]
  · rw [b2h_length_of_dvd _ (by rw [hol]; exact hdvd), hol]

/-- C3: every `sha3_n` call returns `some` byte array of exactly `n / 8`
bytes (28, 32, 48, 64): the squeezed bit string has exactly `n` bits, `b2h`
packs it into exactly `n / 8` bytes, and the `expect("incorrect length")`
panic branch (modelled as `none`) is unreachable. -/
theorem sha3_lengths (input : List Nat) :
    (∃ out, sha3_224 input = some out ∧ out.length = 28) ∧
    (∃ out, sha3_256 input = some out ∧ out.length = 32) ∧
    (∃ out, sha3_384 input = some out ∧ out.length = 48) ∧
    (∃ out, sha3_512 input = some out ∧ out.length = 64) :=
  ⟨sha3_some_length 224 input (by decide) (by decide) (by decide),
   sha3_some_length 256 input (by decide) (by decide) (by decide),
   sha3_some_length 384 input (by decide) (by decide) (by decide),
   sha3_some_length 512 input (by decide) (by decide) (by decide)⟩

/-! ## C4: the whole-state squeeze refines the rate-prefix squeeze -/

/-- Modelled from the spec (§4.7 step 4): the squeeze loop of the specified
sponge appends only the first `r` bits of the state to `Z` in each step and
elides the final permutation when `Z` is already long enough. -/
def squeezeSpec (f : SpongeFn) (r : Nat) (hr : 0 < r) (d : Nat) (s : BArr)
    (z : List Bool) : List Bool :=
  if _h : z.length < d then
    (if (z ++ s.val.take r).length < d
      then squeezeSpec f r hr d (f s.val) (z ++ s.val.take r)
      else (z ++ s.val.take r).take d)
  else z.take d
termination_by d - z.length
decreasing_by
  have hs : s.val.length = 1600 := s.property
  simp only [List.length_append, List.length_take, hs]
  omega

/-- Modelled from the spec (§4.7): same padding and absorbing phase as the
implementation, rate-prefix squeezing. -/
def spongeSpec (f : SpongeFn) (pad : PadFn) (r : Nat) (hr : 0 < r)
    (n : List Bool) (d : Nat) : List Bool :=
  let p := n ++ pad (r : Int) (n.length : Int)
  squeezeSpec f r hr d (absorb f zeroB (chunks r p)) []

/-- C4: for every permutation `f`, every padding function, every rate
`0 < r < B`, every input and every output length `d ≤ r`, the implemented
sponge (which appends the whole `B`-bit state per squeeze step and
truncates at the end) returns exactly the bits of the specified
rate-prefix sponge. -/
theorem sponge_refines_spec (f : SpongeFn) (pad : PadFn) (r : Nat)
    (n : List Bool) (d : Nat) (hr : 0 < r) (hrB : r < B) (hd : d ≤ r) :
    sponge f pad r n d = some (spongeSpec f pad r hr n d) := by
  rw [sponge_some f pad r n d hrB hr, spongeSpec]
  congr 1
  generalize absorb f zeroB (chunks r (n ++ pad (r : Int) (n.length : Int))) = s
  have hs : s.val.length = 1600 := s.property
  have hB : B = 1600 := rfl
  by_cases hd0 : d = 0
  · subst hd0
    rw [squeeze, if_neg (by simp), squeezeSpec, dif_neg (by simp)]
  · rw [squeeze, if_pos (by simp only [List.length_nil]; omega)]
    rw [squeeze, if_neg (by simp only [List.nil_append, hs]; omega)]
    rw [squeezeSpec, dif_pos (by simp only [List.length_nil]; omega)]
    rw [if_neg (by simp only [List.nil_append, List.length_take, hs]; omega)]
    simp only [List.nil_append, List.take_take]
    congr 1
    omega

/-- A concrete constant sponge function, for the C4 witness. -/
def constSpongeFn : SpongeFn := fun _ => zeroB

/-- A concrete empty padding function, for the C4 witness. -/
def emptyPad : PadFn := fun _ _ => []

/-- Witness for C4 at `f = constSpongeFn`, `pad = emptyPad`, `r = 8`,
`n = [true]`, `d = 4`. -/
theorem sponge_refines_spec_witness :
    sponge constSpongeFn emptyPad 8 [true] 4 =
      some (spongeSpec constSpongeFn emptyPad 8 (by omega) [true] 4) :=
  sponge_refines_spec constSpongeFn emptyPad 8 [true] 4 (by omega)
    (by norm_num [B]) (by omega)

/-! ## Closed forms of the step mappings -/

theorem getD_map_range {β : Type} (n : Nat) (f : Nat → β) (d : β) {x : Nat}
    (hx : x < n) : ((List.range n).map f).getD x d = f x := by
  rw [List.getD_eq_getElem?_getD, List.getElem?_map, List.getElem?_range hx]
  rfl

/-- Reading any in-range bit of a state built by the `iterate!`-shaped
triple `map` over ranges. -/
theorem getBit_build (g : Nat → Nat → Nat → Bool) {x y z : Nat}
    (hx : x < 5) (hy : y < 5) (hz : z < W) :
    getBit ((List.range 5).map fun x =>
      (List.range 5).map fun y => (List.range W).map fun z => g x y z) x y z
      = g x y z := by
  rw [getBit, getLane, getD_map_range _ _ _ hx, getD_map_range _ _ _ hy,
    getD_map_range _ _ _ hz]

theorem WF_build (g : Nat → Nat → Nat → Bool) :
    WF ((List.range 5).map fun x =>
      (List.range 5).map fun y => (List.range W).map fun z => g x y z) := by
  refine ⟨by simp, ?_⟩
  intro p hp
  simp only [List.mem_map, List.mem_range] at hp
  obtain ⟨x, _, rfl⟩ := hp
  refine ⟨by simp, ?_⟩
  intro l hl
  simp only [List.mem_map, List.mem_range] at hl
  obtain ⟨y, _, rfl⟩ := hl
  simp

theorem getP_build (g : Nat → Nat → Bool) {x z : Nat} (hx : x < 5) (hz : z < W) :
    getP ((List.range 5).map fun x => (List.range W).map fun z => g x z) x z = g x z := by
  rw [getP, getD_map_range _ _ _ hx, getD_map_range _ _ _ hz]

theorem thetaC_get (s : State) {x z : Nat} (hx : x < 5) (hz : z < W) :
    getP (thetaC s) x z =
      Bool.xor (Bool.xor (Bool.xor (Bool.xor (getBit s x 0 z) (getBit s x 1 z))
        (getBit s x 2 z)) (getBit s x 3 z)) (getBit s x 4 z) := by
  rw [thetaC, getP_build _ hx hz]
  rfl

theorem thetaD_get (c : List (List Bool)) {x z : Nat} (hx : x < 5) (hz : z < W) :
    getP (thetaD c) x z =
      Bool.xor (getP c ((x + 4) % 5) z) (getP c ((x + 1) % 5) ((z + W - 1) % W)) := by
  rw [thetaD, getP_build _ hx hz]

theorem theta_get (s : State) {x y z : Nat} (hx : x < 5) (hy : y < 5) (hz : z < W) :
    getBit (theta s) x y z =
      Bool.xor (getBit s x y z) (getP (thetaD (thetaC s)) x z) := by
  rw [theta, getBit_build _ hx hy hz]

theorem WF_theta (s : State) : WF (theta s) := WF_build _

theorem pi_get (s : State) {x y z : Nat} (hx : x < 5) (hy : y < 5) (hz : z < W) :
    getBit (pi s) x y z = getBit s ((x + 3 * y) % 5) x z := by
  rw [pi, getBit_build _ hx hy hz]

theorem WF_pi (s : State) : WF (pi s) := WF_build _

theorem chi_get (s : State) {x y z : Nat} (hx : x < 5) (hy : y < 5) (hz : z < W) :
    getBit (chi s) x y z =
      Bool.xor (getBit s x y z)
        ((!getBit s ((x + 1) % 5) y z) && getBit s ((x + 2) % 5) y z) := by
  rw [chi, getBit_build _ hx hy hz]

theorem WF_chi (s : State) : WF (chi s) := WF_build _

theorem getLane_setLane_ne (s : State) {x y x' y' : Nat} (L : List Bool)
    (h : (x, y) ≠ (x', y')) :
    getLane (setLane s x y L) x' y' = getLane s x' y' := by
  simp only [getLane, setLane]
  by_cases hx : x = x'
  · subst hx
    by_cases hxl : x < s.length
    · rw [getD_set_self _ _ _ hxl]
      have hy : y ≠ y' := by intro hyy; exact h (by rw [hyy])
      rw [getD_set_ne _ _ _ hy]
    · rw [List.set_eq_of_length_le (le_of_not_lt hxl)]
  · rw [getD_set_ne _ _ _ hx]

/-- Well-formedness of the outer two levels only, enough to position lanes. -/
def WF5 (s : State) : Prop := s.length = 5 ∧ ∀ p ∈ s, p.length = 5

theorem WF5_of_WF {s : State} (h : WF s) : WF5 s :=
  ⟨h.1, fun p hp => (h.2 p hp).1⟩

theorem getLane_setLane_eq (s : State) {x y : Nat} (L : List Bool)
    (hx : x < 5) (hy : y < 5) (h : WF5 s) :
    getLane (setLane s x y L) x y = L := by
  obtain ⟨h5, hmem⟩ := h
  have hxl : x < s.length := by omega
  have hyl : y < (s.getD x []).length := by
    rw [hmem _ (getD_mem s [] hxl)]; exact hy
  simp only [getLane, setLane]
  rw [getD_set_self _ _ _ hxl, getD_set_self _ _ _ hyl]

theorem WF5_setLane (s : State) (x y : Nat) (L : List Bool) (h : WF5 s) :
    WF5 (setLane s x y L) := by
  obtain ⟨h5, hmem⟩ := h
  refine ⟨by rw [setLane, List.length_set, h5], ?_⟩
  intro p hp
  rw [setLane] at hp
  by_cases hxl : x < s.length
  · rcases List.mem_or_eq_of_mem_set hp with hp' | hp'
    · exact hmem p hp'
    · subst hp'
      by_cases hyl : y < (s.getD x []).length
      · rw [List.length_set]
        exact hmem _ (getD_mem s [] hxl)
      · rw [List.set_eq_of_length_le (le_of_not_lt hyl)]
        exact hmem _ (getD_mem s [] hxl)
  · rw [List.set_eq_of_length_le (le_of_not_lt hxl)] at hp
    exact hmem p hp

theorem WF_setLane (s : State) (x y : Nat) (L : List Bool) (hL : L.length = W)
    (h : WF s) : WF (setLane s x y L) := by
  obtain ⟨h5, hmem⟩ := h
  refine ⟨by rw [setLane, List.length_set, h5], ?_⟩
  intro p hp
  rw [setLane] at hp
  by_cases hxl : x < s.length
  · rcases List.mem_or_eq_of_mem_set hp with hp' | hp'
    · exact hmem p hp'
    · subst hp'
      obtain ⟨hp5, hlanes⟩ := hmem _ (getD_mem s [] hxl)
      by_cases hyl : y < (s.getD x []).length
      · refine ⟨by rw [List.length_set, hp5], ?_⟩
        intro l hl
        rcases List.mem_or_eq_of_mem_set hl with hl' | hl'
        · exact hlanes l hl'
        · subst hl'; exact hL
      · rw [List.set_eq_of_length_le (le_of_not_lt hyl)]
        exact ⟨hp5, hlanes⟩
  · rw [List.set_eq_of_length_le (le_of_not_lt hxl)] at hp
    exact hmem p hp

theorem iota_get (s : State) (i : Nat) {x y z : Nat}
    (hx : x < 5) (hy : y < 5) (hz : z < W) (h : WF s) :
    getBit (iota s i) x y z =
      if x = 0 ∧ y = 0
      then Bool.xor (getBit s 0 0 z) ((iotaRcArr i).getD z false)
      else getBit s x y z := by
  rw [iota]
  by_cases hxy : x = 0 ∧ y = 0
  · obtain ⟨rfl, rfl⟩ := hxy
    rw [if_pos ⟨rfl, rfl⟩, getBit,
      getLane_setLane_eq _ _ (by omega) (by omega) (WF5_of_WF h),
      getD_map_range _ _ _ hz]
  · rw [if_neg hxy, getBit, getLane_setLane_ne _ _ ?hne]
    case hne =>
      intro hc
      injection hc with h1 h2
      exact hxy ⟨h1.symm, h2.symm⟩
    rfl

theorem WF_iota (s : State) (i : Nat) (h : WF s) : WF (iota s i) :=
  WF_setLane _ _ _ _ (by simp) h

/-! ## Closed form of ρ via the walk invariant -/

/-- The `(x, y)` coordinates of the ρ walk before step `k`. -/
def walkXY : Nat → Nat × Nat
  | 0 => (1, 0)
  | k + 1 => ((walkXY k).2, (2 * (walkXY k).1 + 3 * (walkXY k).2) % 5)

theorem walkXY_lt (k : Nat) : (walkXY k).1 < 5 ∧ (walkXY k).2 < 5 := by
  induction k with
  | zero => exact ⟨by decide, by decide⟩
  | succ m ih =>
    refine ⟨ih.2, ?_⟩
    simp only [walkXY]
    omega

/-- The step index at which the ρ walk visits lane `5 * y + x`
(24 for the untouched lane `(0, 0)`). -/
def tTab : List Nat :=
  [24, 0, 18, 6, 12, 7, 23, 2, 9, 22, 1, 3, 17, 16, 20, 13, 8, 4, 5, 15, 19, 10, 21, 14, 11]

/-- The accumulated `t * (t + 1) / 2` rotation amount of each lane under the
ρ of the code, indexed by lane `5 * y + x`. -/
def rhoT : List Nat :=
  [0, 0, 171, 21, 78, 28, 276, 3, 45, 253, 1, 6, 153, 136, 210, 91, 36, 10, 15, 120, 190, 55, 231, 105, 66]

theorem tTab_walk : ∀ k, k < 24 → tTab.getD (5 * (walkXY k).2 + (walkXY k).1) 0 = k := by
  decide

theorem tTab_inj : ∀ k, k < 24 → ∀ x, x < 5 → ∀ y, y < 5 →
    tTab.getD (5 * y + x) 0 = k → x = (walkXY k).1 ∧ y = (walkXY k).2 := by
  decide

theorem tTab_lt : ∀ l, l < 25 → 0 < l → tTab.getD l 0 < 24 := by decide

theorem rhoT_tTab : ∀ l, l < 25 →
    rhoT.getD l 0 = (tTab.getD l 0) * (tTab.getD l 0 + 1) / 2 ∨ l = 0 := by decide

theorem getD_replicate_lt {α : Type} (n : Nat) (a d : α) {i : Nat} (h : i < n) :
    (List.replicate n a).getD i d = a := by
  rw [List.getD_eq_getElem?_getD, List.getElem?_eq_getElem (by simpa),
    List.getElem_replicate]
  rfl

theorem getLane_new_state {x y : Nat} (hx : x < 5) (hy : y < 5) :
    getLane new_state x y = List.replicate W false := by
  rw [getLane, new_state, getD_replicate_lt _ _ _ hx, getD_replicate_lt _ _ _ hy]

theorem WF5_new_state : WF5 new_state := WF5_of_WF WF_new_state

/-- The ρ fold invariant: after `k` steps the accumulator sits at
`walkXY k`, and each visited lane holds its `rhoLane`, the others their
initial value. -/
def rhoInv (s : State) (k : Nat) (acc : Nat × Nat × State) : Prop :=
  acc.1 = (walkXY k).1 ∧ acc.2.1 = (walkXY k).2 ∧ WF5 acc.2.2 ∧
  ∀ x y, x < 5 → y < 5 →
    getLane acc.2.2 x y =
      if 5 * y + x = 0 then getLane s 0 0
      else if tTab.getD (5 * y + x) 0 < k then rhoLane s x y (tTab.getD (5 * y + x) 0)
      else List.replicate W false

theorem rhoInv_zero (s : State) :
    rhoInv s 0 (1, 0, setLane new_state 0 0 (getLane s 0 0)) := by
  refine ⟨rfl, rfl, WF5_setLane _ _ _ _ WF5_new_state, ?_⟩
  intro x y hx hy
  by_cases h0 : 5 * y + x = 0
  · have hx0 : x = 0 := by omega
    have hy0 : y = 0 := by omega
    subst hx0; subst hy0
    rw [if_pos rfl, getLane_setLane_eq _ _ (by omega) (by omega) WF5_new_state]
  · rw [if_neg h0, if_neg (by omega), getLane_setLane_ne _ _
      (by intro hc; injection hc with h1 h2; omega), getLane_new_state hx hy]

theorem rhoInv_step (s : State) (k : Nat) (hk : k < 24) (acc : Nat × Nat × State)
    (h : rhoInv s k acc) : rhoInv s (k + 1) (rhoStep s acc k) := by
  obtain ⟨hx, hy, hWF, hlanes⟩ := h
  have hwx := (walkXY_lt k).1
  have hwy := (walkXY_lt k).2
  refine ⟨?_, ?_, ?_, ?_⟩
  · simp only [rhoStep, hy, walkXY]
  · simp only [rhoStep, hx, hy, walkXY]
  · exact WF5_setLane _ _ _ _ hWF
  · intro x y hx5 hy5
    simp only [rhoStep, hx, hy]
    by_cases hcur : x = (walkXY k).1 ∧ y = (walkXY k).2
    · obtain ⟨rfl, rfl⟩ := hcur
      rw [getLane_setLane_eq _ _ hwx hwy hWF]
      have h0 : ¬ (5 * (walkXY k).2 + (walkXY k).1 = 0) := by
        intro hc
        have ht := tTab_walk k hk
        rw [hc] at ht
        have h24 : tTab.getD 0 0 = 24 := rfl
        omega
      rw [if_neg h0, if_pos (by rw [tTab_walk k hk]; omega), tTab_walk k hk]
    · rw [getLane_setLane_ne _ _ (by
        intro hc; injection hc with h1 h2; exact hcur ⟨h1.symm, h2.symm⟩)]
      rw [hlanes x y hx5 hy5]
      by_cases h0 : 5 * y + x = 0
      · rw [if_pos h0, if_pos h0]
      · rw [if_neg h0, if_neg h0]
        by_cases hlt : tTab.getD (5 * y + x) 0 < k
        · rw [if_pos hlt, if_pos (by omega)]
        · rw [if_neg hlt, if_neg (by
            intro hc
            have heq : tTab.getD (5 * y + x) 0 = k := by omega
            obtain ⟨he1, he2⟩ := tTab_inj k hk x hx5 y hy5 heq
            exact hcur ⟨he1, he2⟩)]

theorem rhoInv_fold (s : State) : ∀ k, k ≤ 24 →
    rhoInv s k ((List.range k).foldl (rhoStep s)
      (1, 0, setLane new_state 0 0 (getLane s 0 0))) := by
  intro k
  induction k with
  | zero => intro _; exact rhoInv_zero s
  | succ m ih =>
    intro hm
    rw [List.range_succ, List.foldl_append, List.foldl_cons, List.foldl_nil]
    exact rhoInv_step s m (by omega) _ (ih (by omega))

/-- Closed form of the ρ of the code: every lane is cyclically shifted by
the accumulated amount `t (t + 1) / 2` recorded in `rhoT`, reading
`new[z] = old[(z + amount) % W]`. -/
theorem rho_get (s : State) {x y z : Nat} (hx : x < 5) (hy : y < 5) (hz : z < W) :
    getBit (rho s) x y z = getBit s x y ((z + rhoT.getD (5 * y + x) 0) % W) := by
  obtain ⟨-, -, -, hlanes⟩ := rhoInv_fold s 24 (le_refl _)
  rw [getBit, rho, hlanes x y hx hy]
  by_cases h0 : 5 * y + x = 0
  · rw [if_pos h0]
    have hx0 : x = 0 := by omega
    have hy0 : y = 0 := by omega
    subst hx0; subst hy0
    have hr0 : rhoT.getD (5 * 0 + 0) 0 = 0 := rfl
    rw [hr0, Nat.add_zero, Nat.mod_eq_of_lt hz]
    rfl
  · rw [if_neg h0, if_pos (tTab_lt _ (by omega) (by omega))]
    rw [rhoLane, getD_map_range _ _ _ hz]
    rcases rhoT_tTab (5 * y + x) (by omega) with h | h
    · rw [h]
    · omega

theorem getLane_length_of_WF {s : State} (h : WF s) {x y : Nat}
    (hx : x < 5) (hy : y < 5) : (getLane s x y).length = W := by
  obtain ⟨h5, hmem⟩ := h
  have hxl : x < s.length := by omega
  obtain ⟨hp5, hlanes⟩ := hmem _ (getD_mem s [] hxl)
  have hyl : y < (s.getD x []).length := by omega
  exact hlanes _ (getD_mem _ [] hyl)

theorem WF_of_WF5_lanes (s : State) (h5 : WF5 s)
    (hl : ∀ x y, x < 5 → y < 5 → (getLane s x y).length = W) : WF s := by
  obtain ⟨hs5, hmem⟩ := h5
  refine ⟨hs5, ?_⟩
  intro p hp
  refine ⟨hmem p hp, ?_⟩
  obtain ⟨x, hxlt, hxe⟩ := List.mem_iff_getElem.mp hp
  intro l hlm
  obtain ⟨y, hylt, hye⟩ := List.mem_iff_getElem.mp hlm
  have hgx : s.getD x [] = p := by
    rw [List.getD_eq_getElem?_getD, List.getElem?_eq_getElem hxlt, hxe]
    rfl
  have hgy : p.getD y [] = l := by
    rw [List.getD_eq_getElem?_getD, List.getElem?_eq_getElem hylt, hye]
    rfl
  have := hl x y (by omega) (by rw [hmem p hp] at hylt; omega)
  rw [getLane, hgx, hgy] at this
  exact this

theorem WF_rho (s : State) (h : WF s) : WF (rho s) := by
  obtain ⟨-, -, hWF5, hlanes⟩ := rhoInv_fold s 24 (le_refl _)
  refine WF_of_WF5_lanes _ hWF5 ?_
  intro x y hx hy
  show (getLane ((List.range 24).foldl (rhoStep s)
    (1, 0, setLane new_state 0 0 (getLane s 0 0))).2.2 x y).length = W
  rw [hlanes x y hx hy]
  by_cases h0 : 5 * y + x = 0
  · rw [if_pos h0]
    have hx0 : x = 0 := by omega
    have hy0 : y = 0 := by omega
    subst hx0; subst hy0
    exact getLane_length_of_WF h (by omega) (by omega)
  · rw [if_neg h0]
    by_cases hlt : tTab.getD (5 * y + x) 0 < 24
    · rw [if_pos hlt]; simp [rhoLane]
    · rw [if_neg hlt]; simp

/-! ## Pointwise characterisation of `dump_state` and `fill_state` -/

theorem set_take_succ {α : Type} (bits : List α) (i : Nat) (a : α)
    (h : i < bits.length) :
    (bits.set i a).take (i + 1) = bits.take i ++ [a] := by
  have hset : bits.set i a = bits.take i ++ a :: bits.drop (i + 1) := by
    rw [List.set_eq_take_append_cons_drop, if_pos h]
  have htakei : (bits.set i a).take i = bits.take i := by
    rw [hset, List.take_append_of_le_length (by rw [List.length_take]; omega),
      List.take_take]
    simp
  rw [List.take_succ, htakei]
  congr 1
  rw [List.getElem?_set_self h]
  rfl

theorem dumpGo_closed (s : State) : ∀ (ts : List (Nat × Nat × Nat)) (bits : List Bool)
    (i : Nat), i + ts.length ≤ bits.length →
    dumpGo s bits i ts =
      bits.take i ++ ts.map (fun p => getBit s p.1 p.2.1 p.2.2) ++
        bits.drop (i + ts.length) := by
  intro ts
  induction ts with
  | nil =>
    intro bits i _
    rw [show dumpGo s bits i [] = bits from rfl, List.map_nil, List.append_nil,
      List.length_nil, Nat.add_zero, List.take_append_drop]
  | cons p rest ih =>
    intro bits i hle
    obtain ⟨px, py, pz⟩ := p
    have hi : i < bits.length := by simp at hle; omega
    rw [dumpGo, if_neg (by omega)]
    rw [ih (bits.set i (getBit s px py pz)) (i + 1)
      (by rw [List.length_set]; simp only [List.length_cons] at hle; omega)]
    rw [set_take_succ _ _ _ hi, List.drop_set_of_lt _ _ (by omega)]
    simp only [List.map_cons, List.length_cons]
    have harith : i + 1 + rest.length = i + (rest.length + 1) := by omega
    rw [harith]
    simp [List.append_assoc]

theorem dump_state_eq_map (s : State) :
    dump_state s = iterateIdx.map (fun p => getBit s p.1 p.2.1 p.2.2) := by
  rw [dump_state, dumpGo_closed s iterateIdx _ 0
    (by rw [iterateIdx_length]; simp [B])]
  rw [iterateIdx_length]
  simp [B, List.drop_replicate]

theorem getD_map_of_lt {α β : Type} (f : α → β) (l : List α) (k : Nat)
    (hk : k < l.length) (d : β) (d' : α) :
    (l.map f).getD k d = f (l.getD k d') := by
  rw [List.getD_eq_getElem?_getD, List.getElem?_map, List.getElem?_eq_getElem hk,
    List.getD_eq_getElem?_getD, List.getElem?_eq_getElem hk]
  rfl

/-- Pointwise form of `dump_state`: bit `W * (5y + x) + z` of the dump is
`state[x][y][z]`. -/
theorem dump_pointwise (s : State) {x y z : Nat} (hx : x < 5) (hy : y < 5)
    (hz : z < W) :
    (dump_state s).getD (64 * (5 * y + x) + z) false = getBit s x y z := by
  have hW : W = 64 := rfl
  have hk : 64 * (5 * y + x) + z < 1600 := by rw [hW] at hz; omega
  rw [dump_state_eq_map,
    getD_map_of_lt (fun p => getBit s p.1 p.2.1 p.2.2) iterateIdx
      (64 * (5 * y + x) + z) (by rw [iterateIdx_length]; omega) false (0, 0, 0)]
  have hmem := @getD_mem (Nat × Nat × Nat) iterateIdx (64 * (5 * y + x) + z)
    ((0 : Nat), (0 : Nat), (0 : Nat)) (by rw [iterateIdx_length]; exact hk)
  have hb := iterateIdx_bounds _ hmem
  have hflat : 64 * (5 * (iterateIdx.getD (64 * (5 * y + x) + z) (0, 0, 0)).2.1 +
      (iterateIdx.getD (64 * (5 * y + x) + z) (0, 0, 0)).1) +
      (iterateIdx.getD (64 * (5 * y + x) + z) (0, 0, 0)).2.2 = 64 * (5 * y + x) + z := by
    have h1 : (iterateIdx.map (fun p => 64 * (5 * p.2.1 + p.1) + p.2.2)).getD
        (64 * (5 * y + x) + z) 0 = 64 * (5 * y + x) + z := by
      rw [iterateIdx_map_flat, List.getD_eq_getElem?_getD, List.getElem?_range hk]
      rfl
    rw [getD_map_of_lt (fun p => 64 * (5 * p.2.1 + p.1) + p.2.2) iterateIdx
      (64 * (5 * y + x) + z) (by rw [iterateIdx_length]; omega) 0 (0, 0, 0)] at h1
    exact h1
  rw [hW] at hz
  obtain ⟨hb1, hb2, hb3⟩ := hb
  have hW' : W = 64 := rfl
  rw [hW'] at hb3
  have e1 : (iterateIdx.getD (64 * (5 * y + x) + z) (0, 0, 0)).1 = x := by omega
  have e2 : (iterateIdx.getD (64 * (5 * y + x) + z) (0, 0, 0)).2.1 = y := by omega
  have e3 : (iterateIdx.getD (64 * (5 * y + x) + z) (0, 0, 0)).2.2 = z := by omega
  rw [e1, e2, e3]

/-- Pointwise form of `fill_state` from a zero state:
`state[x][y][z] = bits[W * (5y + x) + z]`. -/
theorem fill_pointwise (v : List Bool) (hv : v.length = 1600) {x y z : Nat}
    (hx : x < 5) (hy : y < 5) (hz : z < W) :
    getBit (fill_state new_state v) x y z = v.getD (64 * (5 * y + x) + z) false := by
  rw [← dump_pointwise _ hx hy hz, dump_fill_roundtrip v hv]

theorem WF_fillGo (bits : List Bool) : ∀ (ts : List (Nat × Nat × Nat)) (s : State)
    (i : Nat), WF s → WF (fillGo bits s i ts) := by
  intro ts
  induction ts with
  | nil => intro s i h; exact h
  | cons p rest ih =>
    intro s i h
    obtain ⟨px, py, pz⟩ := p
    rw [fillGo]
    split
    · exact h
    · exact ih _ _ (WF_setBit s px py pz _ h)

theorem WF_fill_state (bits : List Bool) : WF (fill_state new_state bits) :=
  WF_fillGo bits iterateIdx new_state 0 WF_new_state

/-- Two well-formed states with equal bits everywhere are equal. -/
theorem state_ext {a b : State} (ha : WF a) (hb : WF b)
    (h : ∀ x y z, x < 5 → y < 5 → z < W → getBit a x y z = getBit b x y z) :
    a = b := by
  obtain ⟨ha5, hamem⟩ := ha
  obtain ⟨hb5, hbmem⟩ := hb
  apply List.ext_getElem (by omega)
  intro x hx1 hx2
  have hpa := hamem _ (List.getElem_mem hx1)
  have hpb := hbmem _ (List.getElem_mem hx2)
  apply List.ext_getElem (by omega)
  intro y hy1 hy2
  have hla := hpa.2 _ (List.getElem_mem hy1)
  have hlb := hpb.2 _ (List.getElem_mem hy2)
  apply List.ext_getElem (by omega)
  intro z hz1 hz2
  have hgb := h x y z (by omega) (by rw [hpa.1] at hy1; omega)
    (by rw [hla] at hz1; omega)
  have hax : a.getD x [] = a[x] := by
    rw [List.getD_eq_getElem?_getD, List.getElem?_eq_getElem hx1]; rfl
  have hay : a[x].getD y [] = a[x][y] := by
    rw [List.getD_eq_getElem?_getD, List.getElem?_eq_getElem hy1]; rfl
  have haz : a[x][y].getD z false = a[x][y][z] := by
    rw [List.getD_eq_getElem?_getD, List.getElem?_eq_getElem hz1]; rfl
  have hbx : b.getD x [] = b[x] := by
    rw [List.getD_eq_getElem?_getD, List.getElem?_eq_getElem hx2]; rfl
  have hby : b[x].getD y [] = b[x][y] := by
    rw [List.getD_eq_getElem?_getD, List.getElem?_eq_getElem hy2]; rfl
  have hbz : b[x][y].getD z false = b[x][y][z] := by
    rw [List.getD_eq_getElem?_getD, List.getElem?_eq_getElem hz2]; rfl
  have hga' : getBit a x y z = a[x][y][z] := by
    rw [getBit, getLane, hax, hay, haz]
  have hgb' : getBit b x y z = b[x][y][z] := by
    rw [getBit, getLane, hbx, hby, hbz]
  rw [← hga', ← hgb', hgb]

/-- `fill_state` after `dump_state` restores any well-formed state. -/
theorem fill_dump (s : State) (h : WF s) :
    fill_state new_state (dump_state s) = s := by
  apply state_ext (WF_fill_state _) h
  intro x y z hx hy hz
  rw [fill_pointwise _ (dump_state_length s) hx hy hz, dump_pointwise s hx hy hz]

/-! ## Bit-vector encoding of bit lists into `Nat` -/

/-- Little-endian value of a bit list: bit `i` of the result is entry `i`. -/
def bitsToNat (l : List Bool) : Nat :=
  l.foldr (fun b acc => 2 * acc + (if b then 1 else 0)) 0

theorem bitsToNat_testBit (l : List Bool) : ∀ i : Nat,
    (bitsToNat l).testBit i = l.getD i false := by
  induction l with
  | nil => intro i; simp [bitsToNat, Nat.zero_testBit]
  | cons b t ih =>
    intro i
    have hstep : bitsToNat (b :: t) = 2 * bitsToNat t + (if b then 1 else 0) := rfl
    match i with
    | 0 =>
      rw [hstep, Nat.testBit_zero]
      rcases b with _ | _ <;> simp <;> omega
    | i + 1 =>
      rw [hstep, Nat.testBit_add_one]
      have hdiv : (2 * bitsToNat t + (if b then 1 else 0)) / 2 = bitsToNat t := by
        rcases b with _ | _ <;> simp <;> omega
      rw [hdiv, ih i]
      rfl

theorem bitsToNat_lt (l : List Bool) : bitsToNat l < 2 ^ l.length := by
  induction l with
  | nil => simp [bitsToNat]
  | cons b t ih =>
    have hstep : bitsToNat (b :: t) = 2 * bitsToNat t + (if b then 1 else 0) := rfl
    rw [hstep, List.length_cons, Nat.pow_succ]
    rcases b with _ | _
    · simp; omega
    · simp; omega

theorem bitsToNat_inj {a b : List Bool} (ha : a.length = b.length)
    (h : bitsToNat a = bitsToNat b) : a = b := by
  apply List.ext_getElem ha
  intro i h1 h2
  have := congrArg (fun v => v.testBit i) h
  simp only [bitsToNat_testBit] at this
  rw [List.getD_eq_getElem?_getD, List.getElem?_eq_getElem h1] at this
  rw [List.getD_eq_getElem?_getD, List.getElem?_eq_getElem h2] at this
  exact this

/-! ## Lane-wise builders for the `Nat` mirror

The mirror packs the state as a single `Nat`, lane `l = 5 * y + x` occupying
bits `64 * l .. 64 * l + 63`.  All step mirrors are built lane by lane with
shift/mask arithmetic, so that a round on a concrete word evaluates by
shallow arithmetic. -/

/-- The 64-bit lane mask. -/
def maskW : Nat := 2 ^ 64 - 1

/-- Lane `l` (64 bits) of a packed 1600-bit state word. -/
def getLaneN (ns l : Nat) : Nat := (ns >>> (64 * l)) &&& maskW

/-- Pack the lanes `f 0, …, f (n - 1)` (64 bits each, low lane first). -/
def packLanes (f : Nat → Nat) : Nat → Nat
  | 0 => 0
  | n + 1 => (f 0 &&& maskW) + 2 ^ 64 * packLanes (fun l => f (l + 1)) n

/-- A 1600-bit state word from its 25 lanes. -/
def stateOfLanes (f : Nat → Nat) : Nat := packLanes f 25

theorem and_maskW_lt (v : Nat) : v &&& maskW < 2 ^ 64 :=
  lt_of_le_of_lt Nat.and_le_right (Nat.sub_lt (Nat.pos_pow_of_pos 64 (by omega)) (by omega))

theorem getLaneN_lt (ns l : Nat) : getLaneN ns l < 2 ^ 64 := and_maskW_lt _

theorem getLaneN_testBit (ns l z : Nat) :
    (getLaneN ns l).testBit z = if z < 64 then ns.testBit (64 * l + z) else false := by
  rw [getLaneN, Nat.testBit_and, maskW, Nat.testBit_two_pow_sub_one, Nat.testBit_shiftRight]
  by_cases hz : z < 64
  · simp [hz]
  · simp [hz]

theorem testBit_addLow (a b z : Nat) (ha : a < 2 ^ 64) (hz : z < 64) :
    (a + 2 ^ 64 * b).testBit z = a.testBit z := by
  have h1 : (a + 2 ^ 64 * b) % 2 ^ 64 = a := by
    rw [Nat.add_mul_mod_self_left, Nat.mod_eq_of_lt ha]
  calc (a + 2 ^ 64 * b).testBit z
      = ((a + 2 ^ 64 * b) % 2 ^ 64).testBit z := by
        rw [Nat.testBit_mod_two_pow]
        simp [hz]
    _ = a.testBit z := by rw [h1]

theorem testBit_addHigh (a b i : Nat) (ha : a < 2 ^ 64) :
    (a + 2 ^ 64 * b).testBit (64 + i) = b.testBit i := by
  have hs : (a + 2 ^ 64 * b) >>> 64 = b := by
    rw [Nat.shiftRight_eq_div_pow, Nat.add_mul_div_left _ _ (by positivity),
      Nat.div_eq_of_lt ha]
    omega
  rw [← Nat.testBit_shiftRight, hs]

theorem packLanes_lt (n : Nat) : ∀ f : Nat → Nat, packLanes f n < 2 ^ (64 * n) := by
  induction n with
  | zero =>
    intro f
    rw [packLanes]
    norm_num
  | succ n ih =>
    intro f
    rw [packLanes]
    have h1 : f 0 &&& maskW < 2 ^ 64 := and_maskW_lt _
    have h2 := ih fun l => f (l + 1)
    calc (f 0 &&& maskW) + 2 ^ 64 * packLanes (fun l => f (l + 1)) n
        < 2 ^ 64 * (packLanes (fun l => f (l + 1)) n + 1) := by omega
      _ ≤ 2 ^ 64 * 2 ^ (64 * n) := Nat.mul_le_mul_left _ (Nat.succ_le_of_lt h2)
      _ = 2 ^ (64 * (n + 1)) := by
          rw [← pow_add]
          congr 1
          omega

theorem packLanes_testBit (n : Nat) : ∀ (f : Nat → Nat) (j z : Nat), j < n → z < 64 →
    (packLanes f n).testBit (64 * j + z) = (f j).testBit z := by
  induction n with
  | zero =>
    intro f j z hj hz
    omega
  | succ n ih =>
    intro f j z hj hz
    match j with
    | 0 =>
      rw [packLanes]
      have h1 : 64 * 0 + z = z := by omega
      rw [h1, testBit_addLow _ _ z (and_maskW_lt _) hz, Nat.testBit_and, maskW,
        Nat.testBit_two_pow_sub_one]
      simp [hz]
    | j + 1 =>
      rw [packLanes]
      have h1 : 64 * (j + 1) + z = 64 + (64 * j + z) := by omega
      rw [h1, testBit_addHigh _ _ _ (and_maskW_lt _),
        ih (fun l => f (l + 1)) j z (by omega) hz]

theorem stateOfLanes_lt (f : Nat → Nat) : stateOfLanes f < 2 ^ 1600 := by
  have h := packLanes_lt 25 f
  norm_num at h
  exact h

theorem stateOfLanes_testBit (f : Nat → Nat) (i : Nat) :
    (stateOfLanes f).testBit i = if i < 1600 then (f (i / 64)).testBit (i % 64) else false := by
  by_cases hi : i < 1600
  · rw [if_pos hi]
    have h1 : i = 64 * (i / 64) + i % 64 := by omega
    conv_lhs => rw [h1]
    exact packLanes_testBit 25 f (i / 64) (i % 64) (by omega) (by omega)
  · rw [if_neg hi]
    exact Nat.testBit_lt_two_pow (lt_of_lt_of_le (stateOfLanes_lt f)
      (Nat.pow_le_pow_right (by omega) (by omega)))

/-- Lane rotation: bit `z` of the result is bit `(z + k) % 64` of `v`. -/
def rotR (v k : Nat) : Nat := ((v >>> (k % 64)) ||| (v <<< (64 - k % 64))) &&& maskW

theorem rotR_lt (v k : Nat) : rotR v k < 2 ^ 64 := and_maskW_lt _

theorem rotR_testBit (v k z : Nat) (hv : v < 2 ^ 64) (hz : z < 64) :
    (rotR v k).testBit z = v.testBit ((z + k) % 64) := by
  rw [rotR, Nat.testBit_and, maskW, Nat.testBit_two_pow_sub_one, Nat.testBit_or,
    Nat.testBit_shiftRight, Nat.testBit_shiftLeft]
  by_cases hcase : z + k % 64 < 64
  · have e1 : (z + k) % 64 = k % 64 + z := by omega
    rw [e1, decide_eq_false (by omega : ¬ z ≥ 64 - k % 64), decide_eq_true hz]
    simp
  · have hge : v.testBit (k % 64 + z) = false :=
      Nat.testBit_lt_two_pow (lt_of_lt_of_le hv (Nat.pow_le_pow_right (by omega) (by omega)))
    have e4 : z - (64 - k % 64) = (z + k) % 64 := by omega
    rw [hge, decide_eq_true (by omega : z ≥ 64 - k % 64), decide_eq_true hz, e4]
    simp

/-! ## The `Nat` mirror of the step mappings -/

/-- Column parity `C[x][z]` of a 1600-bit state word, associated exactly as
the `thetaC` fold. -/
def cParityN (ns : Nat) (x z : Nat) : Bool :=
  Bool.xor (Bool.xor (Bool.xor (Bool.xor (ns.testBit (64 * (5 * 0 + x) + z))
    (ns.testBit (64 * (5 * 1 + x) + z))) (ns.testBit (64 * (5 * 2 + x) + z)))
    (ns.testBit (64 * (5 * 3 + x) + z))) (ns.testBit (64 * (5 * 4 + x) + z))

/-- Column-parity lane `C[x]` as a 64-bit word, associated as the `thetaC` fold. -/
def cLaneN (ns x : Nat) : Nat :=
  (((getLaneN ns (5 * 0 + x) ^^^ getLaneN ns (5 * 1 + x)) ^^^ getLaneN ns (5 * 2 + x)) ^^^
    getLaneN ns (5 * 3 + x)) ^^^ getLaneN ns (5 * 4 + x)

theorem cLaneN_lt (ns x : Nat) : cLaneN ns x < 2 ^ 64 :=
  Nat.xor_lt_two_pow (Nat.xor_lt_two_pow (Nat.xor_lt_two_pow
    (Nat.xor_lt_two_pow (getLaneN_lt _ _) (getLaneN_lt _ _)) (getLaneN_lt _ _))
    (getLaneN_lt _ _)) (getLaneN_lt _ _)

theorem cLaneN_testBit (ns x z : Nat) (hz : z < 64) :
    (cLaneN ns x).testBit z = cParityN ns x z := by
  rw [cLaneN, cParityN, Nat.testBit_xor, Nat.testBit_xor, Nat.testBit_xor, Nat.testBit_xor,
    getLaneN_testBit, getLaneN_testBit, getLaneN_testBit, getLaneN_testBit, getLaneN_testBit,
    if_pos hz, if_pos hz, if_pos hz, if_pos hz, if_pos hz]

/-- Mirror of θ on 1600-bit words. -/
def thetaN (ns : Nat) : Nat :=
  stateOfLanes fun l =>
    getLaneN ns l ^^^
      (cLaneN ns ((l % 5 + 4) % 5) ^^^ rotR (cLaneN ns ((l % 5 + 1) % 5)) 63)

theorem thetaN_testBit (ns i : Nat) :
    (thetaN ns).testBit i = if i < 1600 then
      Bool.xor (ns.testBit i)
        (Bool.xor (cParityN ns ((i / 64 % 5 + 4) % 5) (i % 64))
          (cParityN ns ((i / 64 % 5 + 1) % 5) ((i % 64 + 63) % 64))) else false := by
  rw [thetaN]
  simp only [stateOfLanes_testBit]
  by_cases hi : i < 1600
  · rw [if_pos hi, if_pos hi]
    have hz : i % 64 < 64 := by omega
    rw [Nat.testBit_xor, Nat.testBit_xor, getLaneN_testBit, if_pos hz,
      rotR_testBit _ _ _ (cLaneN_lt _ _) hz, cLaneN_testBit _ _ _ hz,
      cLaneN_testBit _ _ _ (by omega : (i % 64 + 63) % 64 < 64)]
    have e : 64 * (i / 64) + i % 64 = i := by omega
    rw [e]
  · rw [if_neg hi, if_neg hi]

/-- Mirror of the ρ of the code on 1600-bit words. -/
def rhoN (ns : Nat) : Nat :=
  stateOfLanes fun l => rotR (getLaneN ns l) (rhoT.getD l 0)

theorem rhoN_testBit (ns i : Nat) :
    (rhoN ns).testBit i = if i < 1600 then
      ns.testBit (64 * (i / 64) + (i % 64 + rhoT.getD (i / 64) 0) % 64) else false := by
  rw [rhoN]
  simp only [stateOfLanes_testBit]
  by_cases hi : i < 1600
  · rw [if_pos hi, if_pos hi]
    have hz : i % 64 < 64 := by omega
    rw [rotR_testBit _ _ _ (getLaneN_lt _ _) hz, getLaneN_testBit,
      if_pos (by omega : (i % 64 + rhoT.getD (i / 64) 0) % 64 < 64)]
  · rw [if_neg hi, if_neg hi]

/-- Mirror of π on 1600-bit words. -/
def piN (ns : Nat) : Nat :=
  stateOfLanes fun l => getLaneN ns (5 * (l % 5) + (l % 5 + 3 * (l / 5)) % 5)

theorem piN_testBit (ns i : Nat) :
    (piN ns).testBit i = if i < 1600 then
      ns.testBit (64 * (5 * (i / 64 % 5) + (i / 64 % 5 + 3 * (i / 320)) % 5) + i % 64)
    else false := by
  rw [piN]
  simp only [stateOfLanes_testBit]
  by_cases hi : i < 1600
  · rw [if_pos hi, if_pos hi]
    have hz : i % 64 < 64 := by omega
    have e : i / 64 / 5 = i / 320 := by omega
    rw [e, getLaneN_testBit, if_pos hz]
  · rw [if_neg hi, if_neg hi]

/-- Mirror of χ on 1600-bit words. -/
def chiN (ns : Nat) : Nat :=
  stateOfLanes fun l =>
    getLaneN ns l ^^^
      ((maskW ^^^ getLaneN ns (5 * (l / 5) + (l % 5 + 1) % 5)) &&&
        getLaneN ns (5 * (l / 5) + (l % 5 + 2) % 5))

theorem chiN_testBit (ns i : Nat) :
    (chiN ns).testBit i = if i < 1600 then
      Bool.xor (ns.testBit i)
        ((!ns.testBit (64 * (5 * (i / 320) + (i / 64 % 5 + 1) % 5) + i % 64)) &&
          ns.testBit (64 * (5 * (i / 320) + (i / 64 % 5 + 2) % 5) + i % 64)) else false := by
  rw [chiN]
  simp only [stateOfLanes_testBit]
  by_cases hi : i < 1600
  · rw [if_pos hi, if_pos hi]
    have hz : i % 64 < 64 := by omega
    have e : i / 64 / 5 = i / 320 := by omega
    rw [e, Nat.testBit_xor, Nat.testBit_and, Nat.testBit_xor, getLaneN_testBit,
      getLaneN_testBit, getLaneN_testBit, if_pos hz, if_pos hz, if_pos hz,
      maskW, Nat.testBit_two_pow_sub_one, decide_eq_true hz, Bool.true_xor]
    have e2 : 64 * (i / 64) + i % 64 = i := by omega
    rw [e2]
  · rw [if_neg hi, if_neg hi]

/-- Mirror of ι on 1600-bit words: XOR the round-constant lane into lane 0. -/
def iotaN (ns ri : Nat) : Nat := ns ^^^ bitsToNat (iotaRcArr ri)

/-- Mirror of one round. -/
def roundN (ns ri : Nat) : Nat := iotaN (chiN (piN (rhoN (thetaN ns)))) ri

/-- The relation between a nested-list state and its 1600-bit word mirror. -/
def R (s : State) (ns : Nat) : Prop :=
  ns < 2 ^ 1600 ∧ ∀ x y z, x < 5 → y < 5 → z < W →
    getBit s x y z = ns.testBit (64 * (5 * y + x) + z)

/-! ## Correspondence of the list steps and their `Nat` mirrors -/

theorem cParityN_eq (s : State) (ns : Nat)
    (hbits : ∀ x y z, x < 5 → y < 5 → z < W →
      getBit s x y z = ns.testBit (64 * (5 * y + x) + z))
    {x z : Nat} (hx : x < 5) (hz : z < 64) :
    getP (thetaC s) x z = cParityN ns x z := by
  have hW : W = 64 := rfl
  rw [thetaC_get s hx (by rw [hW]; omega), cParityN,
    hbits x 0 z hx (by omega) (by rw [hW]; omega),
    hbits x 1 z hx (by omega) (by rw [hW]; omega),
    hbits x 2 z hx (by omega) (by rw [hW]; omega),
    hbits x 3 z hx (by omega) (by rw [hW]; omega),
    hbits x 4 z hx (by omega) (by rw [hW]; omega)]

theorem R_theta {s : State} {ns : Nat} (h : R s ns) : R (theta s) (thetaN ns) := by
  obtain ⟨hb, hbits⟩ := h
  refine ⟨stateOfLanes_lt _, ?_⟩
  intro x y z hx hy hz
  have hW : W = 64 := rfl
  rw [hW] at hz
  have hi : 64 * (5 * y + x) + z < 1600 := by omega
  rw [thetaN_testBit, if_pos hi]
  have e1 : (64 * (5 * y + x) + z) / 64 % 5 = x := by omega
  have e2 : (64 * (5 * y + x) + z) % 64 = z := by omega
  rw [e1, e2, theta_get s hx hy (by rw [hW]; omega)]
  congr 1
  · exact hbits x y z hx hy (by rw [hW]; omega)
  · rw [thetaD_get _ hx (by rw [hW]; omega)]
    have hz2 : (z + W - 1) % W = (z + 63) % 64 := by rw [hW]; omega
    rw [hz2]
    congr 1
    · exact cParityN_eq s ns hbits (by omega) hz
    · exact cParityN_eq s ns hbits (by omega) (by omega)

theorem R_rho {s : State} {ns : Nat} (h : R s ns) : R (rho s) (rhoN ns) := by
  obtain ⟨hb, hbits⟩ := h
  refine ⟨stateOfLanes_lt _, ?_⟩
  intro x y z hx hy hz
  have hW : W = 64 := rfl
  rw [hW] at hz
  have hi : 64 * (5 * y + x) + z < 1600 := by omega
  rw [rhoN_testBit, if_pos hi]
  have e1 : (64 * (5 * y + x) + z) / 64 = 5 * y + x := by omega
  have e2 : (64 * (5 * y + x) + z) % 64 = z := by omega
  rw [e1, e2, rho_get s hx hy (by rw [hW]; omega)]
  have hzT : (z + rhoT.getD (5 * y + x) 0) % W < W := by
    rw [hW]
    omega
  rw [hbits x y _ hx hy hzT, hW]

theorem R_pi {s : State} {ns : Nat} (h : R s ns) : R (pi s) (piN ns) := by
  obtain ⟨hb, hbits⟩ := h
  refine ⟨stateOfLanes_lt _, ?_⟩
  intro x y z hx hy hz
  have hW : W = 64 := rfl
  rw [hW] at hz
  have hi : 64 * (5 * y + x) + z < 1600 := by omega
  rw [piN_testBit, if_pos hi]
  have e1 : (64 * (5 * y + x) + z) / 64 % 5 = x := by omega
  have e2 : (64 * (5 * y + x) + z) % 64 = z := by omega
  have e3 : (64 * (5 * y + x) + z) / 320 = y := by omega
  rw [e1, e2, e3, pi_get s hx hy (by rw [hW]; omega)]
  exact hbits _ x z (by omega) hx (by rw [hW]; omega)

theorem R_chi {s : State} {ns : Nat} (h : R s ns) : R (chi s) (chiN ns) := by
  obtain ⟨hb, hbits⟩ := h
  refine ⟨stateOfLanes_lt _, ?_⟩
  intro x y z hx hy hz
  have hW : W = 64 := rfl
  rw [hW] at hz
  have hi : 64 * (5 * y + x) + z < 1600 := by omega
  rw [chiN_testBit, if_pos hi]
  have e1 : (64 * (5 * y + x) + z) / 64 % 5 = x := by omega
  have e2 : (64 * (5 * y + x) + z) % 64 = z := by omega
  have e3 : (64 * (5 * y + x) + z) / 320 = y := by omega
  rw [e1, e2, e3, chi_get s hx hy (by rw [hW]; omega)]
  rw [hbits x y z hx hy (by rw [hW]; omega),
    hbits _ y z (by omega) hy (by rw [hW]; omega),
    hbits _ y z (by omega) hy (by rw [hW]; omega)]

theorem iotaRcArr_length (ri : Nat) : (iotaRcArr ri).length = 64 := by
  rw [iotaRcArr]
  rw [show List.range (L + 1) = [0, 1, 2, 3, 4, 5, 6] from rfl]
  simp only [List.foldl_cons, List.foldl_nil, List.length_set, List.length_replicate]
  rfl

theorem R_iota {s : State} {ns : Nat} (ri : Nat) (hWF : WF s) (h : R s ns) :
    R (iota s ri) (iotaN ns ri) := by
  obtain ⟨hb, hbits⟩ := h
  have hrcb : bitsToNat (iotaRcArr ri) < 2 ^ 1600 := by
    have h1 := bitsToNat_lt (iotaRcArr ri)
    rw [iotaRcArr_length] at h1
    exact lt_of_lt_of_le h1 (Nat.pow_le_pow_right (by omega) (by omega))
  refine ⟨Nat.xor_lt_two_pow hb hrcb, ?_⟩
  intro x y z hx hy hz
  have hW : W = 64 := rfl
  rw [hW] at hz
  rw [iotaN, Nat.testBit_xor, bitsToNat_testBit,
    iota_get s ri hx hy (by rw [hW]; omega) hWF]
  by_cases hxy : x = 0 ∧ y = 0
  · obtain ⟨rfl, rfl⟩ := hxy
    rw [if_pos ⟨rfl, rfl⟩]
    rw [hbits 0 0 z (by omega) (by omega) (by rw [hW]; omega)]
    have e0 : 64 * (5 * 0 + 0) + z = z := by omega
    rw [e0]
  · rw [if_neg hxy, hbits x y z hx hy (by rw [hW]; omega)]
    have hge : (iotaRcArr ri).getD (64 * (5 * y + x) + z) false = false := by
      apply List.getD_eq_default
      rw [iotaRcArr_length]
      omega
    rw [hge]
    simp

theorem R_round {s : State} {ns : Nat} (ri : Nat) (h : R s ns) :
    R (round s ri) (roundN ns ri) := by
  have h1 := R_theta h
  have h2 := R_rho h1
  have h3 := R_pi h2
  have h4 := R_chi h3
  exact R_iota ri (WF_chi _) h4

theorem R_fold {s : State} {ns : Nat} (h : R s ns) (l : List Nat) :
    R (l.foldl (fun s i => round s i) s) (l.foldl roundN ns) := by
  induction l generalizing s ns with
  | nil => exact h
  | cons a t ih => exact ih (R_round a h)

theorem R_fill (bits : List Bool) (h : bits.length = 1600) :
    R (fill_state new_state bits) (bitsToNat bits) := by
  refine ⟨lt_of_lt_of_le (bitsToNat_lt bits)
    (Nat.pow_le_pow_right (by omega) (le_of_eq h)), ?_⟩
  intro x y z hx hy hz
  rw [fill_pointwise bits h hx hy hz, bitsToNat_testBit]

theorem dump_of_R {s : State} {ns : Nat} (h : R s ns) :
    dump_state s = (List.range 1600).map fun i => ns.testBit i := by
  obtain ⟨hb, hbits⟩ := h
  rw [dump_state_eq_map, ← iterateIdx_map_flat, List.map_map]
  apply List.map_congr_left
  intro p hp
  obtain ⟨h1, h2, h3⟩ := iterateIdx_bounds p hp
  simp only [Function.comp_apply]
  exact hbits p.1 p.2.1 p.2.2 h1 h2 h3

/-- `keccak_f` on a 1600-bit input equals the bit expansion of 24 mirrored
rounds on the packed 1600-bit word. -/
theorem keccak_f_mirror (bits : List Bool) (h : bits.length = 1600) :
    keccak_f bits =
      (List.range 1600).map fun i =>
        ((List.range 24).foldl roundN (bitsToNat bits)).testBit i := by
  rw [keccak_f, show 12 + 2 * L = 24 from rfl]
  exact dump_of_R (R_fold (R_fill bits h) (List.range 24))


/-! ## C1: evaluating `sha3_256` on the empty input -/

theorem bitsToNat_append (a b : List Bool) :
    bitsToNat (a ++ b) = bitsToNat a + 2 ^ a.length * bitsToNat b := by
  induction a with
  | nil => simp [bitsToNat]
  | cons x t ih =>
    have h1 : bitsToNat (x :: (t ++ b)) =
        2 * bitsToNat (t ++ b) + (if x then 1 else 0) := rfl
    have h2 : bitsToNat (x :: t) = 2 * bitsToNat t + (if x then 1 else 0) := rfl
    rw [List.cons_append, h1, ih, h2, List.length_cons, pow_succ]
    ring

theorem bitsToNat_replicate_false (n : Nat) :
    bitsToNat (List.replicate n false) = 0 := by
  induction n with
  | zero => rfl
  | succ n ih =>
    have h : bitsToNat (false :: List.replicate n false) =
        2 * bitsToNat (List.replicate n false) + (if false then 1 else 0) := rfl
    rw [List.replicate_succ, h, ih]
    simp

theorem set_replicate_false : ∀ k n : Nat, k < n →
    (List.replicate n false).set k true =
      List.replicate k false ++ true :: List.replicate (n - k - 1) false := by
  intro k
  induction k with
  | zero =>
    intro n hn
    match n with
    | m + 1 =>
      rw [List.replicate_succ]
      simp
  | succ k ih =>
    intro n hn
    match n with
    | m + 1 =>
      rw [List.replicate_succ,
        show (false :: List.replicate m false).set (k + 1) true =
          false :: (List.replicate m false).set k true from rfl,
        ih m (by omega),
        show List.replicate (k + 1) false = false :: List.replicate k false from rfl,
        List.cons_append,
        show m + 1 - (k + 1) - 1 = m - k - 1 from by omega]

theorem zipWith_xor_replicate_false (p : List Bool) : ∀ n, p.length ≤ n →
    List.zipWith Bool.xor (List.replicate n false) p = p := by
  induction p with
  | nil =>
    intro n _
    simp
  | cons a t ih =>
    intro n h
    match n with
    | 0 => simp at h
    | m + 1 =>
      rw [List.replicate_succ, List.zipWith_cons_cons, Bool.false_xor,
        ih m (by simpa using h)]

theorem xorInto_replicate_false (p : List Bool) (n : Nat) (h : p.length ≤ n) :
    xorInto (List.replicate n false) p = p ++ List.replicate (n - p.length) false := by
  rw [xorInto, zipWith_xor_replicate_false p n h, List.drop_replicate]

theorem chunks_exact {α : Type} (r : Nat) (hr : 0 < r) (l : List α)
    (h : l.length = r) : chunks r l = [l] := by
  match l with
  | [] =>
    rw [List.length_nil] at h
    omega
  | a :: t =>
    rw [chunks, if_neg (by omega), ← h, List.take_length, List.drop_length, chunks]

theorem squeeze_once (f : SpongeFn) (d : Nat) (s : BArr) (hd : 0 < d)
    (hd2 : d ≤ 1600) : squeeze f d s [] = s.val.take d := by
  have hs : s.val.length = 1600 := s.property
  rw [squeeze, if_pos (by simp only [List.length_nil]; omega)]
  rw [squeeze, if_neg (by simp only [List.nil_append, hs]; omega)]
  rw [List.nil_append]


theorem bitsToNat_cons (b : Bool) (t : List Bool) :
    bitsToNat (b :: t) = 2 * bitsToNat t + (if b then 1 else 0) := rfl

theorem bitsToNat_nil : bitsToNat [] = 0 := rfl

theorem pad101_1088_2 :
    pad101 1088 2 =
      true :: (List.replicate 1084 false ++ true :: List.replicate 0 false) := by
  have hj : ((1088 : Int) - (2 : Int).tmod 1088 - 2).emod 1088 = 1084 := by decide
  have h0 : pad101 1088 2 =
      ((List.replicate 1086 false).set 0 true).set 1085 true := by
    show ((List.replicate ((((1088 : Int)) - (2 : Int).tmod 1088 - 2).emod 1088 + 2).toNat
          false).set 0 true).set
        (((((1088 : Int)) - (2 : Int).tmod 1088 - 2).emod 1088).toNat + 1) true =
      ((List.replicate 1086 false).set 0 true).set 1085 true
    rw [hj]
    norm_num
    rw [show Int.toNat 1086 = 1086 from rfl, show Int.toNat 1084 = 1084 from rfl]
  rw [h0, set_replicate_false 0 1086 (by omega),
    show (1086 : Nat) - 0 - 1 = 1085 from by omega,
    show List.replicate 0 false ++ true :: List.replicate 1085 false =
      true :: List.replicate 1085 false from rfl,
    show (true :: List.replicate 1085 false).set 1085 true =
      true :: (List.replicate 1085 false).set 1084 true from rfl,
    set_replicate_false 1084 1085 (by omega)]

theorem bitsToNat_cons_true (t : List Bool) :
    bitsToNat (true :: t) = 2 * bitsToNat t + 1 := rfl

theorem bitsToNat_cons_false (t : List Bool) :
    bitsToNat (false :: t) = 2 * bitsToNat t := by
  have h : bitsToNat (false :: t) = 2 * bitsToNat t + (if false then 1 else 0) := rfl
  rw [h]
  simp

theorem bitsToNat_padded :
    bitsToNat (([false, true] ++
        (true :: (List.replicate 1084 false ++ true :: List.replicate 0 false))) ++
      List.replicate 512 false) = 2 ^ 1087 + 6 := by
  simp only [bitsToNat_append, bitsToNat_cons_true, bitsToNat_cons_false,
    bitsToNat_replicate_false, bitsToNat_nil, List.cons_append, List.nil_append,
    List.length_append, List.length_cons, List.length_replicate, List.length_nil,
    Nat.mul_zero, Nat.add_zero, Nat.zero_add]
  rw [show (2 : Nat) ^ 1087 = 8 * 2 ^ 1084 from by
    rw [show (1087 : Nat) = 3 + 1084 from rfl, pow_add]
    norm_num]
  generalize (2 : Nat) ^ 1084 = M
  omega

theorem h2b_b2h_roundtrip (H : List Nat) (hH : ∀ b ∈ H, b < 256) :
    b2h (h2b H (8 * H.length)) = H := by
  rw [h2b, List.take_of_length_le (le_of_eq (flatMapBits_length H)), b2h]
  have hU : U8BITS = 8 := rfl
  rw [hU, chunks_flatMap 8 (by omega) _ (fun a => by simp) H]
  rw [List.map_map]
  conv_rhs => rw [← List.map_id H]
  exact List.map_congr_left fun b hb => byte_roundtrip b (hH b hb)

/-- The packed post-absorption state evaluated through 24 mirrored rounds. -/
theorem fold24_empty : (List.range 24).foldl roundN (2 ^ 1087 + 6) = 12412113700423880771083929682411950111899674006059576445197549613613745957402884961637268304301183873659722439886354437270876769288687954526578864394461887525879294758283028999301148368965326460756470144071198803678251271529908987871444836050077313551447420883999486533571178695212097480427380426902451041983497536054172903557029821976422592300168676346694029739671333523452203210865840406592580276710830530086594325969486256611095503707426988539737102895697860767080705149871874182 := by
  decide

theorem keccak_fB_val (bits : List Bool) : (keccak_fB bits).val = keccak_f bits := by
  simp only [keccak_fB]

theorem absorb_one (f : SpongeFn) (s : BArr) (c : List Bool) :
    absorb f s [c] = f (xorInto s.val c) := by
  simp only [absorb]

theorem zeroB_val : zeroB.val = List.replicate 1600 false := by
  simp only [zeroB, B]

theorem keccak_empty_eval :
    keccak (256 * 2) (h2b [] (List.length ([] : List Nat) * U8BITS) ++ [false, true]) 256 =
      some ((List.range 256).map fun i => (12412113700423880771083929682411950111899674006059576445197549613613745957402884961637268304301183873659722439886354437270876769288687954526578864394461887525879294758283028999301148368965326460756470144071198803678251271529908987871444836050077313551447420883999486533571178695212097480427380426902451041983497536054172903557029821976422592300168676346694029739671333523452203210865840406592580276710830530086594325969486256611095503707426988539737102895697860767080705149871874182 : Nat).testBit i) := by
  have hplen : ([false, true] ++ pad101 1088 2).length = 1088 := by
    rw [pad101_1088_2]
    simp
  rw [show h2b [] (List.length ([] : List Nat) * U8BITS) ++ [false, true] =
      [false, true] from rfl,
    keccak, show B - 256 * 2 = 1088 from rfl,
    sponge_some keccak_fB pad101 1088 [false, true] 256 (by decide) (by decide),
    show (List.length [false, true]) = 2 from rfl]
  simp only [Nat.cast_ofNat]
  rw [chunks_exact 1088 (by omega) _ hplen, absorb_one]
  rw [squeeze_once _ _ _ (by omega) (by omega)]
  rw [keccak_fB_val, zeroB_val]
  rw [xorInto_replicate_false _ _ (by rw [hplen]; omega)]
  rw [hplen]
  rw [show (1600 : Nat) - 1088 = 512 from by omega]
  rw [pad101_1088_2]
  rw [keccak_f_mirror _ (by simp)]
  rw [bitsToNat_padded, fold24_empty]
  rw [← List.map_take, List.take_range, show (256 : Nat) ⊓ 1600 = 256 from by norm_num]

/-- C1: the spec claims `sha3_256` of the empty buffer is
`a7ffc6f8bf1ed76651c14756a061d662f580ff4de43b49fa82d80a4b80f8434a`; evaluated
end to end through the sponge and the 24 rounds of `keccak_f`, the code
instead returns
`8660c4549c11365b28e1e7d8e230b2a38c729923c14e50ee58897a1bcc2807ef`, so the
claimed test-vector equality fails on the empty input. -/
theorem sha3_256_empty_divergence :
    sha3_256 [] = some [0x86, 0x60, 0xc4, 0x54, 0x9c, 0x11, 0x36, 0x5b, 0x28, 0xe1, 0xe7, 0xd8, 0xe2, 0x30, 0xb2, 0xa3, 0x8c, 0x72, 0x99, 0x23, 0xc1, 0x4e, 0x50, 0xee, 0x58, 0x89, 0x7a, 0x1b, 0xcc, 0x28, 0x07, 0xef] ∧
      sha3_256 [] ≠ some [0xa7, 0xff, 0xc6, 0xf8, 0xbf, 0x1e, 0xd7, 0x66, 0x51, 0xc1, 0x47, 0x56, 0xa0, 0x61, 0xd6, 0x62, 0xf5, 0x80, 0xff, 0x4d, 0xe4, 0x3b, 0x49, 0xfa, 0x82, 0xd8, 0x0a, 0x4b, 0x80, 0xf8, 0x43, 0x4a] := by
  have hX : ((List.range 256).map fun i => (12412113700423880771083929682411950111899674006059576445197549613613745957402884961637268304301183873659722439886354437270876769288687954526578864394461887525879294758283028999301148368965326460756470144071198803678251271529908987871444836050077313551447420883999486533571178695212097480427380426902451041983497536054172903557029821976422592300168676346694029739671333523452203210865840406592580276710830530086594325969486256611095503707426988539737102895697860767080705149871874182 : Nat).testBit i) =
      h2b [0x86, 0x60, 0xc4, 0x54, 0x9c, 0x11, 0x36, 0x5b, 0x28, 0xe1, 0xe7, 0xd8, 0xe2, 0x30, 0xb2, 0xa3, 0x8c, 0x72, 0x99, 0x23, 0xc1, 0x4e, 0x50, 0xee, 0x58, 0x89, 0x7a, 0x1b, 0xcc, 0x28, 0x07, 0xef] (8 * List.length [0x86, 0x60, 0xc4, 0x54, 0x9c, 0x11, 0x36, 0x5b, 0x28, 0xe1, 0xe7, 0xd8, 0xe2, 0x30, 0xb2, 0xa3, 0x8c, 0x72, 0x99, 0x23, 0xc1, 0x4e, 0x50, 0xee, 0x58, 0x89, 0x7a, 0x1b, 0xcc, 0x28, 0x07, 0xef]) := by decide
  have h : sha3_256 [] = some [0x86, 0x60, 0xc4, 0x54, 0x9c, 0x11, 0x36, 0x5b, 0x28, 0xe1, 0xe7, 0xd8, 0xe2, 0x30, 0xb2, 0xa3, 0x8c, 0x72, 0x99, 0x23, 0xc1, 0x4e, 0x50, 0xee, 0x58, 0x89, 0x7a, 0x1b, 0xcc, 0x28, 0x07, 0xef] := by
    simp only [sha3_256, sha3]
    rw [keccak_empty_eval, Option.some_bind, hX,
      h2b_b2h_roundtrip _ (by decide)]
    decide
  exact ⟨h, by rw [h]; decide⟩

end Keccak
